import Mathlib

/-!
Verification of the lob-sdk grid pathfinding core: a shallow embedding of
the `PriorityQueue` class (priority-queue.ts) and the `AStar` class
(a-star.ts), together with proofs about cache behaviour, path validity,
the open-set/heap invariant and heap ordering.

Modelling conventions:
* JS numbers used as costs/priorities are modelled as rationals `ℚ`;
  the value `Infinity` returned by a step-cost function is modelled by
  `Option ℚ` with `none` standing for `Infinity`.
* JS `Map`/`Set` objects are modelled as association lists / lists with
  the same observable lookup, insertion-order iteration and
  replace-on-set semantics.
* The node pool is a pure allocation optimisation (nodes are reset on
  acquisition and deep-copied before being cached), so nodes are
  modelled as immutable records indexed by their encoded key; the heap
  stores encoded keys, mirroring the object references of the source
  (within one search the node map is injective from keys to nodes).
* The `while` loops (search loop, parent-chain walk) are modelled with
  explicit fuel; the fuel is provably sufficient on all reachable
  states.
-/

namespace LobSDK

/-- 2D integer point (the `Point2` interface of the vector package). -/
structure Point2 where
  x : Int
  y : Int
deriving DecidableEq, Repr

/-- Association-list model of a JS `Map`: `set` replaces in place or
appends, `get` finds the unique binding. -/
def mapSet {β : Type} (m : List (Int × β)) (k : Int) (v : β) : List (Int × β) :=
  match m with
  | [] => [(k, v)]
  | (k', v') :: rest => if k' = k then (k, v) :: rest else (k', v') :: mapSet rest k v

/-- Lookup in the association-list model of a JS `Map`. -/
def mapGet {β : Type} (m : List (Int × β)) (k : Int) : Option β :=
  match m with
  | [] => none
  | (k', v') :: rest => if k' = k then some v' else mapGet rest k

/-- JS `Set.add`: insert if absent. -/
def setAdd (s : List Int) (k : Int) : List Int :=
  if k ∈ s then s else k :: s

/-! ### The priority queue (priority-queue.ts) -/

/-- One heap slot: `{ item, priority }`. -/
structure PQEntry (α : Type) where
  item : α
  priority : ℚ
deriving Repr

/-- The `PriorityQueue<T>` class: a binary heap in a contiguous array with
a numeric comparator supplied at construction. -/
structure PriorityQueue (α : Type) where
  items : List (PQEntry α)
  compare : ℚ → ℚ → ℚ

namespace PriorityQueue

/-- Swap two positions of the backing array (the
`[this.items[i], this.items[j]] = [this.items[j], this.items[i]]` pattern). -/
def swapAt {α : Type} (l : List (PQEntry α)) (i j : Nat) : List (PQEntry α) :=
  match l[i]?, l[j]? with
  | some a, some b => (l.set i b).set j a
  | _, _ => l

/-- Fueled worker for `heapifyUp`; the sift index strictly decreases, so
fuel `index + 1` always suffices. -/
def heapifyUpAux {α : Type} (compare : ℚ → ℚ → ℚ) :
    Nat → List (PQEntry α) → Nat → List (PQEntry α)
  | 0, l, _ => l
  | fuel + 1, l, index =>
    if index = 0 then l
    else
      let parentIndex := (index - 1) / 2
      match l[index]?, l[parentIndex]? with
      | some ci, some pi =>
        if compare ci.priority pi.priority < 0 then
          heapifyUpAux compare fuel (swapAt l index parentIndex) parentIndex
        else l
      | _, _ => l

/-- `heapifyUp` of priority-queue.ts: sift the element at `index` towards
the root while it compares strictly below its parent. -/
def heapifyUp {α : Type} (compare : ℚ → ℚ → ℚ) (l : List (PQEntry α)) (index : Nat) :
    List (PQEntry α) :=
  heapifyUpAux compare (index + 1) l index

/-- The `smallest`-candidate update of `heapifyDown`: switch to candidate
index `i` when the entry there compares strictly below the one at `j`. -/
def childMin {α : Type} (compare : ℚ → ℚ → ℚ) (l : List (PQEntry α)) (i j : Nat) : Nat :=
  match l[i]?, l[j]? with
  | some ci, some cj => if compare ci.priority cj.priority < 0 then i else j
  | _, _ => j

/-- The `smallest` index computed by `heapifyDown`: start from `index`,
prefer the left child `2*index+1` when strictly smaller, then the right
child `2*index+2` when strictly smaller than the current candidate. -/
def downTarget {α : Type} (compare : ℚ → ℚ → ℚ) (l : List (PQEntry α)) (index : Nat) : Nat :=
  childMin compare l (2 * index + 2) (childMin compare l (2 * index + 1) index)

/-- Fueled worker for `heapifyDown`; the sift index strictly increases
while staying below the length, so fuel `l.length - index + 1` always
suffices. -/
def heapifyDownAux {α : Type} (compare : ℚ → ℚ → ℚ) :
    Nat → List (PQEntry α) → Nat → List (PQEntry α)
  | 0, l, _ => l
  | fuel + 1, l, index =>
    if downTarget compare l index = index then l
    else heapifyDownAux compare fuel (swapAt l index (downTarget compare l index))
      (downTarget compare l index)

/-- `heapifyDown` of priority-queue.ts: sift the element at `index` towards
the leaves, swapping with the smaller child while one compares strictly
below it. -/
def heapifyDown {α : Type} (compare : ℚ → ℚ → ℚ) (l : List (PQEntry α)) (index : Nat) :
    List (PQEntry α) :=
  heapifyDownAux compare (l.length + 1 - index) l index

/-- `enqueue`: push to the end of the array, then sift up. -/
def enqueue {α : Type} (q : PriorityQueue α) (item : α) (priority : ℚ) :
    PriorityQueue α :=
  { q with items := heapifyUp q.compare (q.items ++ [⟨item, priority⟩]) q.items.length }

/-- `isEmpty`. -/
def isEmpty {α : Type} (q : PriorityQueue α) : Bool :=
  q.items.isEmpty

/-- `dequeue`: return the root (or `undefined`, modelled as `none`, on an
empty queue), move the last element to the root and sift it down. -/
def dequeue {α : Type} (q : PriorityQueue α) : Option α × PriorityQueue α :=
  match q.items with
  | [] => (none, q)
  | first :: _ =>
    let rest := q.items.dropLast
    match q.items.getLast? with
    | none => (none, q)
    | some last =>
      if rest.isEmpty then (some first.item, { q with items := [] })
      else (some first.item, { q with items := heapifyDown q.compare (rest.set 0 last) 0 })

/-- `clear`: drop the backing storage. -/
def clear {α : Type} (q : PriorityQueue α) : PriorityQueue α :=
  { q with items := [] }

/-- One public priority-queue operation. -/
inductive QOp (α : Type) where
  | enq (a : α) (p : ℚ)
  | deq
  | clr

/-- Run a sequence of public operations against a queue. -/
def execOps {α : Type} (q : PriorityQueue α) : List (QOp α) → PriorityQueue α
  | [] => q
  | QOp.enq a p :: rest => execOps (q.enqueue a p) rest
  | QOp.deq :: rest => execOps (q.dequeue).2 rest
  | QOp.clr :: rest => execOps q.clear rest

/-- The binary-heap ordering of the backing array: no entry compares
strictly below its parent. -/
def HeapProp {α : Type} (c : ℚ → ℚ → ℚ) (l : List (PQEntry α)) : Prop :=
  ∀ j e pe, 0 < j → l[j]? = some e → l[(j - 1) / 2]? = some pe →
    ¬ c e.priority pe.priority < 0

/-- What the queue requires of a comparator for its heap discipline to
order items: "compares strictly below" is irreflexive and transitive,
and its complement is transitive. A subtraction comparator on rationals
satisfies all three. -/
structure CompareLaws (c : ℚ → ℚ → ℚ) : Prop where
  irrefl : ∀ x, ¬ c x x < 0
  lt_trans : ∀ x y z, c x y < 0 → c y z < 0 → c x z < 0
  not_lt_trans : ∀ x y z, ¬ c x y < 0 → ¬ c y z < 0 → ¬ c x z < 0

/-- Heap ordering everywhere except at the sift hole `i`, whose children
additionally compare no lower than `i`'s parent. This is what `enqueue`
establishes before sifting up and what each `heapifyUp` swap
preserves. -/
def UpAdmissible {α : Type} (c : ℚ → ℚ → ℚ) (l : List (PQEntry α)) (i : Nat) : Prop :=
  (∀ (j : Nat) (e pe : PQEntry α), 0 < j → j ≠ i → l[j]? = some e →
    l[(j - 1) / 2]? = some pe → ¬ c e.priority pe.priority < 0) ∧
  (∀ (j : Nat) (e gp : PQEntry α), 0 < i → (j - 1) / 2 = i → l[j]? = some e →
    l[(i - 1) / 2]? = some gp → ¬ c e.priority gp.priority < 0)

/-- Heap ordering everywhere except between the sift hole `i` and its
children, which additionally compare no lower than `i`'s parent. This is
what `dequeue` establishes at the root before sifting down and what each
`heapifyDown` swap preserves. -/
def DownAdmissible {α : Type} (c : ℚ → ℚ → ℚ) (l : List (PQEntry α)) (i : Nat) : Prop :=
  (∀ (j : Nat) (e pe : PQEntry α), 0 < j → (j - 1) / 2 ≠ i → l[j]? = some e →
    l[(j - 1) / 2]? = some pe → ¬ c e.priority pe.priority < 0) ∧
  (∀ (j : Nat) (e gp : PQEntry α), 0 < i → (j - 1) / 2 = i → l[j]? = some e →
    l[(i - 1) / 2]? = some gp → ¬ c e.priority gp.priority < 0)

end PriorityQueue

/-! ### The A* engine (a-star.ts) -/

namespace AStar

/-- `DIAGONAL_COST`, the source's rational approximation of √2. -/
def DIAGONAL_COST : ℚ := 1.41421356237

/-- `CARDINAL_DIRECTIONS`: up, down, left, right as `[dx, dy]`. -/
def CARDINAL_DIRECTIONS : List (Int × Int) := [(0, -1), (0, 1), (-1, 0), (1, 0)]

/-- `DIAGONAL_DIRECTIONS`: the four diagonal `[dx, dy]` tuples. -/
def DIAGONAL_DIRECTIONS : List (Int × Int) := [(-1, -1), (1, -1), (-1, 1), (1, 1)]

/-- Constructor configuration of the `AStar` class: grid width and height,
the caller-supplied step-cost function (`none` models a returned
`Infinity`), and the `useDiagonals` flag. -/
structure Config where
  width : Int
  height : Int
  getStepCost : Point2 → Point2 → Option ℚ
  useDiagonals : Bool

/-- `this.neighborDirections`, fixed at construction. -/
def neighborDirections (cfg : Config) : List (Int × Int) :=
  if cfg.useDiagonals then CARDINAL_DIRECTIONS ++ DIAGONAL_DIRECTIONS
  else CARDINAL_DIRECTIONS

/-- `this.maxKey = width * height`. -/
def maxKey (cfg : Config) : Int := cfg.width * cfg.height

/-- `encodeKey(x, y) = y * width + x`. -/
def encodeKey (cfg : Config) (x y : Int) : Int := y * cfg.width + x

/-- Encoded key of a point. -/
def keyOf (cfg : Config) (p : Point2) : Int := encodeKey cfg p.x p.y

/-- `isValidPoint`: both coordinates within `[0,width) × [0,height)`. -/
def isValidPoint (cfg : Config) (p : Point2) : Prop :=
  0 ≤ p.x ∧ p.x < cfg.width ∧ 0 ≤ p.y ∧ p.y < cfg.height

instance (cfg : Config) (p : Point2) : Decidable (isValidPoint cfg p) :=
  inferInstanceAs (Decidable (_ ∧ _ ∧ _ ∧ _))

/-- `heuristic`: Chebyshev-style distance
`max(dx,dy) + (DIAGONAL_COST - 1) * min(dx,dy)` written exactly as the
source's branch on `dx > dy`. -/
def heuristic (x1 y1 x2 y2 : Int) : ℚ :=
  let dx : Int := if x1 > x2 then x1 - x2 else x2 - x1
  let dy : Int := if y1 > y2 then y1 - y2 else y2 - y1
  if dx > dy then (dx : ℚ) + (DIAGONAL_COST - 1) * (dy : ℚ)
  else (dy : ℚ) + (DIAGONAL_COST - 1) * (dx : ℚ)

/-- A search node: coordinates, `g`/`h`/`f` and the parent link.  The
source stores an object reference; within one search the node map is
injective from encoded keys to node objects, so the parent is modelled
by the parent's encoded key. -/
structure Node where
  x : Int
  y : Int
  g : ℚ
  h : ℚ
  f : ℚ
  parent : Option Int
deriving Repr

/-- A fresh node as produced by `getNode` (pool acquisition resets all
fields): `{x, y, g=0, h=0, f=0, parent=null}`. -/
def getNode (x y : Int) : Node :=
  { x := x, y := y, g := 0, h := 0, f := 0, parent := none }

/-- A cached path: the point sequence plus the encoded-point → index map. -/
structure CachedPath where
  path : List Point2
  pointToIndex : List (Int × Nat)
deriving Repr

/-- The point-to-index map built after a successful search: for each
position `i` in ascending order, `pointToIndex.set(encode(path[i]), i)`. -/
def buildPointToIndex (cfg : Config) (path : List Point2) : List (Int × Nat) :=
  path.enum.foldl (fun m iv => mapSet m (keyOf cfg iv.2) iv.1) []

/-- The engine's persistent cache state: the exact `(start,end)` cache
(`null` entries modelled as `none`) and the subpath index (a JS `Set`
iterated in insertion order, modelled as a list). -/
structure EngineState where
  pathCache : List (Int × Option CachedPath)
  subpathCache : List (Int × List CachedPath)

/-- The engine state of a freshly constructed `AStar` (or one after
`clearCache()`): both caches empty. -/
def emptyState : EngineState := { pathCache := [], subpathCache := [] }

/-- `clearCache()`: discard both caches. -/
def clearCache (_s : EngineState) : EngineState := emptyState

/-- `getNeighbors`: all direction offsets applied to the node position,
keeping the in-bounds ones, in direction order. -/
def getNeighbors (cfg : Config) (nodeX nodeY : Int) : List Point2 :=
  (neighborDirections cfg).filterMap fun d =>
    let x := nodeX + d.1
    let y := nodeY + d.2
    if 0 ≤ x ∧ x < cfg.width ∧ 0 ≤ y ∧ y < cfg.height then some ⟨x, y⟩ else none

/-- The per-query scratch state: the open heap (of encoded keys), the
open-membership set, the closed set, the node map, and a ghost counter
of step-cost invocations. -/
structure SearchState where
  openList : PriorityQueue Int
  openSet : List Int
  closedSet : List Int
  nodeMap : List (Int × Node)
  costCalls : Nat

/-- The source's diagonal test on a move `current → neighbor`:
`(dx === 1 || dx === -1) && (dy === 1 || dy === -1)`. -/
def isDiagonalMove (fromP toP : Point2) : Prop :=
  (toP.x - fromP.x = 1 ∨ toP.x - fromP.x = -1) ∧
    (toP.y - fromP.y = 1 ∨ toP.y - fromP.y = -1)

instance (fromP toP : Point2) : Decidable (isDiagonalMove fromP toP) :=
  inferInstanceAs (Decidable (_ ∧ _))

/-- Lines 236-241 of a-star.ts: fetch the neighbor's node from the node
map, or acquire a fresh one from the pool and register it. -/
def getOrCreateNode (st : SearchState) (nk : Int) (pos : Point2) : SearchState × Node :=
  match mapGet st.nodeMap nk with
  | some n => (st, n)
  | none =>
    let n := getNode pos.x pos.y
    ({ st with nodeMap := mapSet st.nodeMap nk n }, n)

/-- Lines 263-266 of a-star.ts: the in-place update of the neighbor's
parent, `g`, `h` and `f` fields. -/
def writeNeighbor (st : SearchState) (nk : Int) (n : Node) (currentKey : Int)
    (tentativeG hVal : ℚ) : SearchState :=
  let n' : Node :=
    { n with parent := some currentKey, g := tentativeG, h := hVal, f := tentativeG + hVal }
  { st with nodeMap := mapSet st.nodeMap nk n' }

/-- The body of the neighbor loop of `findPath` (a-star.ts lines
226-275) for one neighbor position: closed-set skip, node acquisition
and registration, step-cost call (`none` = `Infinity` skips the edge),
move-cost scaling, the no-improvement skip, the in-place field update,
and the enqueue guarded by open-set membership. -/
def processNeighbor (cfg : Config) (endX endY : Int) (currentKey : Int) (cur : Node)
    (st : SearchState) (neighborPos : Point2) : SearchState :=
  let neighborKey := encodeKey cfg neighborPos.x neighborPos.y
  if neighborKey ∈ st.closedSet then st
  else
    match getOrCreateNode st neighborKey neighborPos with
    | (st1, neighbor) =>
      let st2 := { st1 with costCalls := st1.costCalls + 1 }
      match cfg.getStepCost ⟨cur.x, cur.y⟩ neighborPos with
      | none => st2
      | some baseStepCost =>
        let moveCost := baseStepCost *
          (if isDiagonalMove ⟨cur.x, cur.y⟩ neighborPos then DIAGONAL_COST else 1)
        let tentativeG := cur.g + moveCost
        let inOpenList := neighborKey ∈ st2.openSet
        if inOpenList ∧ tentativeG ≥ neighbor.g then st2
        else
          let hVal := heuristic neighborPos.x neighborPos.y endX endY
          let st3 := writeNeighbor st2 neighborKey neighbor currentKey tentativeG hVal
          if inOpenList then st3
          else
            { st3 with
              openSet := setAdd st3.openSet neighborKey
              openList := st3.openList.enqueue neighborKey (tentativeG + hVal) }

/-- The reversed parent-chain walk of `reconstructPath`, with explicit
fuel (the source's `while (current)` loop; on every reachable search
state the chain is acyclic and the fuel below is sufficient). -/
def chainRev (m : List (Int × Node)) (k : Int) : Nat → List Point2
  | 0 => []
  | fuel + 1 =>
    match mapGet m k with
    | none => []
    | some n =>
      Point2.mk n.x n.y ::
        (match n.parent with
         | none => []
         | some pk => chainRev m pk fuel)

/-- `reconstructPath`: follow parent links from the given node and
reverse the collected points. -/
def reconstructPath (m : List (Int × Node)) (k : Int) : List Point2 :=
  (chainRev m k (m.length + 1)).reverse

/-- Result of one iteration of the `while (!openList.isEmpty())` loop. -/
inductive StepResult where
  | found (path : List Point2) (st : SearchState)
  | goOn (st : SearchState)
  | exhausted (st : SearchState)

/-- One iteration of the search loop of `findPath` (a-star.ts lines
184-276): dequeue the minimum-`f` entry, remove it from the open set,
return the reconstructed path when it is the end key, otherwise close it
and process all its in-bounds neighbors. -/
def searchStep (cfg : Config) (endX endY : Int) (endKey : Int) (st : SearchState) :
    StepResult :=
  if st.openList.isEmpty then .exhausted st
  else
    match (st.openList.dequeue : Option Int × PriorityQueue Int) with
    | (none, _) => .exhausted st
    | (some currentKey, q') =>
      let st1 := { st with openList := q', openSet := st.openSet.erase currentKey }
      if currentKey = endKey then .found (reconstructPath st1.nodeMap currentKey) st1
      else
        let st2 := { st1 with closedSet := setAdd st1.closedSet currentKey }
        match mapGet st2.nodeMap currentKey with
        | none => .goOn st2
        | some cur =>
          .goOn ((getNeighbors cfg cur.x cur.y).foldl
            (processNeighbor cfg endX endY currentKey cur) st2)

/-- Outcome of the whole search loop. -/
inductive SearchOutcome where
  | found (path : List Point2) (st : SearchState)
  | exhausted (st : SearchState)
  | outOfFuel (st : SearchState)

/-- The fuel-indexed search loop. -/
def searchLoop (cfg : Config) (endX endY : Int) (endKey : Int) :
    Nat → SearchState → SearchOutcome
  | 0, st => .outOfFuel st
  | fuel + 1, st =>
    match searchStep cfg endX endY endKey st with
    | .exhausted st' => .exhausted st'
    | .found p st' => .found p st'
    | .goOn st' => searchLoop cfg endX endY endKey fuel st'

/-- Fuel that provably dominates the iteration count of the search loop:
one more than the number of grid cells. -/
def searchFuel (cfg : Config) : Nat := (cfg.width * cfg.height).toNat + 1

/-- The scratch state at the top of a fresh search (a-star.ts lines
166-182): cleared structures, the start node with its heuristic, seeded
into the node map, the open heap (comparator `(a, b) => a - b`) and the
open set. -/
def initialSearchState (cfg : Config) (start : Point2) (endX endY : Int) : SearchState :=
  let startKey := keyOf cfg start
  let h := heuristic start.x start.y endX endY
  let startNode : Node := { getNode start.x start.y with h := h, f := h }
  { openList := (PriorityQueue.mk [] (fun a b => a - b)).enqueue startKey startNode.f
    openSet := setAdd [] startKey
    closedSet := []
    nodeMap := mapSet [] startKey startNode
    costCalls := 0 }

/-- The subpath-cache scan (a-star.ts lines 154-164): walk the cached
paths starting at the queried start key in insertion order and return
the slice up to (and including) the first hit on the end key. -/
def subpathScan (endKey : Int) : List CachedPath → Option (List Point2)
  | [] => none
  | cp :: rest =>
    match mapGet cp.pointToIndex endKey with
    | some endIndex => some (cp.path.take (endIndex + 1))
    | none => subpathScan endKey rest

/-- Register a freshly computed path in the subpath index
(a-star.ts lines 208-214): fetch-or-create the set for the start key and
add the cached path to it. -/
def subpathAdd (spc : List (Int × List CachedPath)) (startKey : Int) (cp : CachedPath) :
    List (Int × List CachedPath) :=
  match mapGet spc startKey with
  | some l => mapSet spc startKey (l ++ [cp])
  | none => mapSet spc startKey [cp]

/-- The observable outcome of one `findPath` call: the returned value,
the engine state afterwards, the number of step-cost invocations during
the call (ghost instrumentation), and whether the search body ran
(ghost instrumentation; `false` when the call was answered by the
precondition check or a cache hit). -/
structure FindResult where
  result : Option (List Point2)
  state : EngineState
  costCalls : Nat
  ranSearch : Bool

/-- `findPath(start, end)` (a-star.ts lines 136-281): bounds check, exact
cache lookup, subpath-cache lookup, and on a miss the full search, whose
positive result is deep-copied and registered in both caches and whose
negative result is recorded in the exact cache only. -/
def findPath (cfg : Config) (s : EngineState) (start goal : Point2) : FindResult :=
  if ¬ isValidPoint cfg start ∨ ¬ isValidPoint cfg goal then
    { result := none, state := s, costCalls := 0, ranSearch := false }
  else
    let startKey := keyOf cfg start
    let endKey := keyOf cfg goal
    let cacheKey := startKey * maxKey cfg + endKey
    match mapGet s.pathCache cacheKey with
    | some cached =>
      { result := cached.map CachedPath.path
        state := s
        costCalls := 0
        ranSearch := false }
    | none =>
      let startPaths := match mapGet s.subpathCache startKey with
        | some l => l
        | none => []
      match subpathScan endKey startPaths with
      | some sliced =>
        { result := some sliced, state := s, costCalls := 0, ranSearch := false }
      | none =>
        match searchLoop cfg goal.x goal.y endKey (searchFuel cfg)
          (initialSearchState cfg start goal.x goal.y) with
        | .found path st =>
          let cp : CachedPath := { path := path, pointToIndex := buildPointToIndex cfg path }
          { result := some path
            state :=
              { pathCache := mapSet s.pathCache cacheKey (some cp)
                subpathCache := subpathAdd s.subpathCache startKey cp }
            costCalls := st.costCalls
            ranSearch := true }
        | .exhausted st =>
          { result := none
            state := { s with pathCache := mapSet s.pathCache cacheKey none }
            costCalls := st.costCalls
            ranSearch := true }
        | .outOfFuel st =>
          { result := none, state := s, costCalls := st.costCalls, ranSearch := true }

end AStar

/-! ### Statement vocabulary -/

namespace AStar

/-- Grid adjacency as the spec states it: each coordinate differs by at
most 1 and the two points are not equal. -/
def Adjacent (a b : Point2) : Prop :=
  (a.x - b.x).natAbs ≤ 1 ∧ (a.y - b.y).natAbs ≤ 1 ∧ a ≠ b

instance (a b : Point2) : Decidable (Adjacent a b) :=
  inferInstanceAs (Decidable (_ ∧ _ ∧ _))

/-- Total cost of a path as the spec states it: the sum over consecutive
pairs of the step cost, scaled by the diagonal multiplier on diagonal
moves; `none` when some step is impassable. -/
def pathCost (cfg : Config) : List Point2 → Option ℚ
  | a :: b :: rest =>
    match cfg.getStepCost a b, pathCost cfg (b :: rest) with
    | some c, some r =>
      some (c * (if isDiagonalMove a b then DIAGONAL_COST else 1) + r)
    | _, _ => none
  | _ => some 0

/-- A feasible path between two points with respect to the configured
direction set and the step-cost function: nonempty, with the stated
endpoints, each move being an in-bounds neighbor move of the configured
direction set with a finite step cost. -/
def IsFeasiblePath (cfg : Config) (start goal : Point2) (p : List Point2) : Prop :=
  p.head? = some start ∧ p.getLast? = some goal ∧
    isValidPoint cfg start ∧
    List.Chain' (fun a b => b ∈ getNeighbors cfg a.x a.y ∧ cfg.getStepCost a b ≠ none) p

/-- Engine states reachable from a freshly constructed engine by
`findPath` calls. -/
inductive Reachable (cfg : Config) : EngineState → Prop
  | init : Reachable cfg emptyState
  | step (s : EngineState) (a b : Point2) :
      Reachable cfg s → Reachable cfg (findPath cfg s a b).state

/-- The encoded keys currently stored in the open heap, in array order. -/
def heapKeys (q : PriorityQueue Int) : List Int := q.items.map PQEntry.item

/-- `ChainTo closed m k ps` means that following parent links from the
node registered at key `k` yields exactly the point list `ps` (from `k`'s
position back to the start position), with every link adjacent, every
point in bounds and matching its key, every parent finalized (in the
closed set), and the chain ending at a parentless node sitting at
`start`. -/
inductive ChainTo (cfg : Config) (start : Point2) (closed : List Int)
    (m : List (Int × Node)) : Int → List Point2 → Prop
  | base (k : Int) (n : Node) :
      mapGet m k = some n → n.parent = none → Point2.mk n.x n.y = start →
      encodeKey cfg n.x n.y = k → isValidPoint cfg ⟨n.x, n.y⟩ →
      ChainTo cfg start closed m k [⟨n.x, n.y⟩]
  | step (k : Int) (n : Node) (pk : Int) (q : Point2) (qs : List Point2) :
      mapGet m k = some n → n.parent = some pk → pk ∈ closed →
      encodeKey cfg n.x n.y = k → isValidPoint cfg ⟨n.x, n.y⟩ →
      Adjacent ⟨n.x, n.y⟩ q →
      ChainTo cfg start closed m pk (q :: qs) →
      ChainTo cfg start closed m k (⟨n.x, n.y⟩ :: q :: qs)

/-- The invariant maintained by the search loop across iterations.
`start` is the queried start point. -/
structure SearchInv (cfg : Config) (start : Point2) (st : SearchState) : Prop where
  heap_perm : (heapKeys st.openList).Perm st.openSet
  open_nodup : st.openSet.Nodup
  closed_nodup : st.closedSet.Nodup
  disj : ∀ k ∈ st.openSet, k ∉ st.closedSet
  node_keys : ∀ k n, mapGet st.nodeMap k = some n →
    encodeKey cfg n.x n.y = k ∧ isValidPoint cfg ⟨n.x, n.y⟩
  active_node : ∀ k, k ∈ st.openSet ∨ k ∈ st.closedSet →
    ∃ n, mapGet st.nodeMap k = some n
  chains : ∀ k, k ∈ st.openSet ∨ k ∈ st.closedSet →
    ∃ ps, ChainTo cfg start st.closedSet st.nodeMap k ps

/-- The retained-cell bound used by the fuel argument. -/
def cellBound (cfg : Config) : Nat := (cfg.width * cfg.height).toNat

/-- The termination measure of the search loop: heap size plus cells not
yet discovered. -/
def searchMeasure (cfg : Config) (st : SearchState) : Nat :=
  st.openList.items.length + (cellBound cfg - (st.openSet.length + st.closedSet.length))

/-! ### Cache well-formedness -/

/-- A well-formed stored path: nonempty, in bounds, grid-adjacent steps,
duplicate-free keys. -/
structure ValidPathSeq (cfg : Config) (p : List Point2) : Prop where
  nonempty : p ≠ []
  valid : ∀ q ∈ p, isValidPoint cfg q
  adj : List.Chain' Adjacent p
  nodup : (p.map (keyOf cfg)).Nodup

/-- A well-formed cached path: a well-formed point sequence and the
point-to-index map actually built from it. -/
structure WFCachedPath (cfg : Config) (cp : CachedPath) : Prop where
  seq : ValidPathSeq cfg cp.path
  pti : cp.pointToIndex = buildPointToIndex cfg cp.path

/-- Well-formedness of the persistent engine state. -/
structure WFState (cfg : Config) (s : EngineState) : Prop where
  exact_entry : ∀ ck cp, mapGet s.pathCache ck = some (some cp) →
    WFCachedPath cfg cp ∧
      ∃ sk ek, 0 ≤ sk ∧ sk < maxKey cfg ∧ 0 ≤ ek ∧ ek < maxKey cfg ∧
        ck = sk * maxKey cfg + ek ∧
        (cp.path.head?).map (keyOf cfg) = some sk ∧
        (cp.path.getLast?).map (keyOf cfg) = some ek
  no_diag_null : ∀ sk, 0 ≤ sk → sk < maxKey cfg →
    mapGet s.pathCache (sk * maxKey cfg + sk) ≠ some none
  subpath_entry : ∀ sk l, mapGet s.subpathCache sk = some l → ∀ cp ∈ l,
    WFCachedPath cfg cp ∧ (cp.path.head?).map (keyOf cfg) = some sk

/-! ### Concrete grid configurations used as evaluation inputs -/

/-- A 3×1 corridor with unit step costs, cardinal moves only. -/
def lineCfg : Config :=
  { width := 3, height := 1, getStepCost := fun _ _ => some 1, useDiagonals := false }

/-- A 4×4 grid with unit step costs, cardinal moves only. -/
def u4 : Config :=
  { width := 4, height := 4, getStepCost := fun _ _ => some 1, useDiagonals := false }

/-- A step-cost function with a cheap detour that the engine's
no-re-enqueue update misses. -/
def c1cost (a b : Point2) : Option ℚ :=
  if a = ⟨0,0⟩ ∧ b = ⟨1,0⟩ then some 100
  else if a = ⟨0,0⟩ ∧ b = ⟨0,1⟩ then some 10
  else if a = ⟨0,1⟩ ∧ b = ⟨1,1⟩ then some 1
  else if a = ⟨1,1⟩ ∧ b = ⟨1,0⟩ then some 1
  else if a = ⟨1,1⟩ ∧ b = ⟨2,1⟩ then some 20
  else if a = ⟨2,1⟩ ∧ b = ⟨2,0⟩ then some 5
  else if a = ⟨1,0⟩ ∧ b = ⟨2,0⟩ then some 1
  else some 1000

/-- A 3×3 grid carrying `c1cost`, cardinal moves only. -/
def c1cfg : Config :=
  { width := 3, height := 3, getStepCost := c1cost, useDiagonals := false }

/-- The c1 search state after `n` loop iterations, exposed through the
out-of-fuel outcome of a truncated run. -/
def c1After (n : Nat) : Option SearchState :=
  match searchLoop c1cfg 2 0 2 n (initialSearchState c1cfg ⟨0,0⟩ 2 0) with
  | .outOfFuel st => some st
  | _ => none

/-- A 2×1 grid on which every step is impassable. -/
def blockedCfg : Config :=
  { width := 2, height := 1, getStepCost := fun _ _ => none, useDiagonals := true }

/-- The sequence of cell keys dequeued and expanded by successive
iterations of the search loop, read off the heap before each step. -/
def dequeueTrace (cfg : Config) (endX endY endKey : Int) : Nat → SearchState → List Int
  | 0, _ => []
  | fuel + 1, st =>
    match (st.openList.dequeue).1 with
    | none => []
    | some ck =>
      match searchStep cfg endX endY endKey st with
      | .goOn st' => ck :: dequeueTrace cfg endX endY endKey fuel st'
      | _ => [ck]

end AStar

/-! ### Association list and set lemmas -/

theorem mapGet_mapSet_self {β : Type} (m : List (Int × β)) (k : Int) (v : β) :
    mapGet (mapSet m k v) k = some v := by
  induction m with
  | nil => simp [mapSet, mapGet]
  | cons kv rest ih =>
    obtain ⟨k', v'⟩ := kv
    by_cases h : k' = k <;> simp [mapSet, mapGet, h, ih]

theorem mapGet_mapSet_ne {β : Type} (m : List (Int × β)) (k j : Int) (v : β)
    (h : j ≠ k) : mapGet (mapSet m k v) j = mapGet m j := by
  induction m with
  | nil =>
    simp only [mapSet, mapGet]
    rw [if_neg (fun e => h e.symm)]
  | cons kv rest ih =>
    obtain ⟨k', v'⟩ := kv
    by_cases hk : k' = k
    · subst hk
      simp only [mapSet, if_pos rfl, mapGet]
      rw [if_neg (fun e => h e.symm), if_neg (fun e => h e.symm)]
    · simp only [mapSet, if_neg hk, mapGet]
      by_cases hk' : k' = j <;> simp [hk', ih]

theorem mem_setAdd {s : List Int} {k j : Int} :
    j ∈ setAdd s k ↔ j = k ∨ j ∈ s := by
  unfold setAdd
  split <;> rename_i h
  · constructor
    · exact fun hj => Or.inr hj
    · rintro (rfl | hj) <;> assumption
  · exact List.mem_cons

theorem setAdd_nodup {s : List Int} {k : Int} (h : s.Nodup) : (setAdd s k).Nodup := by
  unfold setAdd
  split <;> simp_all

theorem setAdd_not_mem {s : List Int} {k : Int} (h : k ∉ s) : setAdd s k = k :: s := by
  simp [setAdd, h]

/-! ### Priority queue content lemmas -/

namespace PriorityQueue

/-- The fuel of `heapifyUpAux` is irrelevant once it exceeds the sift
index. -/
theorem heapifyUpAux_irrel {α : Type} (compare : ℚ → ℚ → ℚ) :
    ∀ (f g : Nat) (l : List (PQEntry α)) (index : Nat), index < f → index < g →
      heapifyUpAux compare f l index = heapifyUpAux compare g l index := by
  intro f
  induction f with
  | zero =>
    intro g l index hf
    omega
  | succ f ih =>
    intro g l index hf hg
    cases g with
    | zero => omega
    | succ g =>
      unfold heapifyUpAux
      by_cases h0 : index = 0
      · simp [h0]
      · rw [if_neg h0, if_neg h0]
        dsimp only
        cases l[index]? with
        | none => rfl
        | some ci =>
          cases l[(index - 1) / 2]? with
          | none => rfl
          | some pi =>
            dsimp only
            by_cases hc : compare ci.priority pi.priority < 0
            · rw [if_pos hc, if_pos hc]
              exact ih g _ _ (by omega) (by omega)
            · rw [if_neg hc, if_neg hc]

/-- The recursive unfolding of `heapifyUp`, matching the source loop. -/
theorem heapifyUp_eq {α : Type} (compare : ℚ → ℚ → ℚ) (l : List (PQEntry α)) (index : Nat) :
    heapifyUp compare l index =
      if index = 0 then l
      else
        match l[index]?, l[(index - 1) / 2]? with
        | some ci, some pi =>
          if compare ci.priority pi.priority < 0 then
            heapifyUp compare (swapAt l index ((index - 1) / 2)) ((index - 1) / 2)
          else l
        | _, _ => l := by
  unfold heapifyUp
  conv_lhs => rw [heapifyUpAux]
  by_cases h0 : index = 0
  · simp [h0]
  · rw [if_neg h0, if_neg h0]
    dsimp only
    cases l[index]? with
    | none => rfl
    | some ci =>
      cases l[(index - 1) / 2]? with
      | none => rfl
      | some pi =>
        dsimp only
        by_cases hc : compare ci.priority pi.priority < 0
        · rw [if_pos hc, if_pos hc]
          exact heapifyUpAux_irrel compare index _ _ _ (by omega) (by omega)
        · rw [if_neg hc, if_neg hc]

/-- Swapping preserves the array length. -/
theorem swapAt_length {α : Type} (l : List (PQEntry α)) (i j : Nat) :
    (swapAt l i j).length = l.length := by
  unfold swapAt
  split <;> simp

theorem childMin_cases {α : Type} (compare : ℚ → ℚ → ℚ) (l : List (PQEntry α)) (i j : Nat) :
    childMin compare l i j = j ∨ (childMin compare l i j = i ∧ i < l.length) := by
  unfold childMin
  split
  · rename_i ci cj hci hcj
    split
    · right
      exact ⟨rfl, (List.getElem?_eq_some.mp hci).1⟩
    · left; rfl
  · left; rfl

theorem downTarget_cases {α : Type} (compare : ℚ → ℚ → ℚ) (l : List (PQEntry α)) (index : Nat) :
    downTarget compare l index = index ∨
      (index < downTarget compare l index ∧ downTarget compare l index < l.length) := by
  unfold downTarget
  rcases childMin_cases compare l (2 * index + 2) (childMin compare l (2 * index + 1) index)
    with h2 | ⟨h2, hlen2⟩ <;>
    rcases childMin_cases compare l (2 * index + 1) index with h1 | ⟨h1, hlen1⟩ <;>
    omega

/-- The fuel of `heapifyDownAux` is irrelevant once it exceeds the
remaining distance to the end of the array. -/
theorem heapifyDownAux_irrel {α : Type} (compare : ℚ → ℚ → ℚ) :
    ∀ (f g : Nat) (l : List (PQEntry α)) (index : Nat),
      l.length - index < f → l.length - index < g →
      heapifyDownAux compare f l index = heapifyDownAux compare g l index := by
  intro f
  induction f with
  | zero =>
    intro g l index hf
    omega
  | succ f ih =>
    intro g l index hf hg
    cases g with
    | zero => omega
    | succ g =>
      unfold heapifyDownAux
      by_cases h0 : downTarget compare l index = index
      · rw [if_pos h0, if_pos h0]
      · rw [if_neg h0, if_neg h0]
        rcases downTarget_cases compare l index with hc | ⟨hc1, hc2⟩
        · exact absurd hc h0
        · exact ih g _ _ (by rw [swapAt_length]; omega) (by rw [swapAt_length]; omega)

/-- The recursive unfolding of `heapifyDown`, matching the source loop. -/
theorem heapifyDown_eq {α : Type} (compare : ℚ → ℚ → ℚ) (l : List (PQEntry α)) (index : Nat) :
    heapifyDown compare l index =
      if downTarget compare l index = index then l
      else heapifyDown compare (swapAt l index (downTarget compare l index))
        (downTarget compare l index) := by
  unfold heapifyDown
  rcases Nat.lt_or_ge index (l.length + 1) with hle | hgt
  · obtain ⟨f, hf⟩ : ∃ f, l.length + 1 - index = f + 1 := ⟨l.length - index, by omega⟩
    rw [hf]
    rw [heapifyDownAux]
    by_cases h0 : downTarget compare l index = index
    · rw [if_pos h0, if_pos h0]
    · rw [if_neg h0, if_neg h0]
      rcases downTarget_cases compare l index with hc | ⟨hc1, hc2⟩
      · exact absurd hc h0
      · exact heapifyDownAux_irrel compare _ _ _ _ (by rw [swapAt_length]; omega)
          (by rw [swapAt_length]; omega)
  · have hf : l.length + 1 - index = 0 := by omega
    rw [hf]
    have hdt : downTarget compare l index = index := by
      rcases downTarget_cases compare l index with h | ⟨h1, h2⟩
      · exact h
      · omega
    rw [if_pos hdt]
    rfl

theorem swapAt_perm {α : Type} (l : List (PQEntry α)) (i j : Nat) :
    (swapAt l i j).Perm l := by
  classical
  unfold swapAt
  split
  · rename_i a b ha hb
    obtain ⟨hi, hia⟩ := List.getElem?_eq_some.mp ha
    obtain ⟨hj, hjb⟩ := List.getElem?_eq_some.mp hb
    have hal : a ∈ l := hia ▸ List.getElem_mem hi
    have hbl : b ∈ l := hjb ▸ List.getElem_mem hj
    rw [List.perm_iff_count]
    intro x
    have hax1 : a = x → 1 ≤ List.count x l := fun e => by
      refine List.one_le_count_iff.mpr ?_
      rw [← e]; exact hal
    have hbx1 : b = x → 1 ≤ List.count x l := fun e => by
      refine List.one_le_count_iff.mpr ?_
      rw [← e]; exact hbl
    have hjlen : j < (l.set i b).length := by simpa using hj
    rw [List.count_set a x (l.set i b) j hjlen, List.count_set b x l i hi, hia]
    rcases eq_or_ne i j with rfl | hij
    · have hab : b = a := by rw [← hia, ← hjb]
      subst hab
      simp only [List.getElem_set_self, beq_iff_eq]
      by_cases hax : b = x
      · have h1 := hbx1 hax
        rw [if_pos hax]
        omega
      · rw [if_neg hax]
        omega
    · have hup : (l.set i b)[j] = l[j] := List.getElem_set_ne hij hjlen
      rw [hup, hjb]
      simp only [beq_iff_eq]
      by_cases hax : a = x <;> by_cases hbx : b = x
      · have h1 := hax1 hax
        rw [if_pos hax, if_pos hbx]
        omega
      · have h1 := hax1 hax
        rw [if_pos hax, if_neg hbx]
        omega
      · have h1 := hbx1 hbx
        rw [if_neg hax, if_pos hbx]
        omega
      · rw [if_neg hax, if_neg hbx]
        omega
  · exact List.Perm.refl l

theorem heapifyUpAux_perm {α : Type} (c : ℚ → ℚ → ℚ) :
    ∀ (f : Nat) (l : List (PQEntry α)) (i : Nat), (heapifyUpAux c f l i).Perm l := by
  intro f
  induction f with
  | zero =>
    intro l i
    exact List.Perm.refl l
  | succ f ih =>
    intro l i
    unfold heapifyUpAux
    by_cases h0 : i = 0
    · simp [h0]
    · rw [if_neg h0]
      dsimp only
      cases l[i]? with
      | none => exact List.Perm.refl l
      | some ci =>
        cases l[(i - 1) / 2]? with
        | none => exact List.Perm.refl l
        | some pi =>
          dsimp only
          by_cases hc : c ci.priority pi.priority < 0
          · rw [if_pos hc]
            exact (ih _ _).trans (swapAt_perm l i ((i - 1) / 2))
          · rw [if_neg hc]

theorem heapifyUp_perm {α : Type} (c : ℚ → ℚ → ℚ) (l : List (PQEntry α)) (i : Nat) :
    (heapifyUp c l i).Perm l :=
  heapifyUpAux_perm c _ l i

theorem heapifyDownAux_perm {α : Type} (c : ℚ → ℚ → ℚ) :
    ∀ (f : Nat) (l : List (PQEntry α)) (i : Nat), (heapifyDownAux c f l i).Perm l := by
  intro f
  induction f with
  | zero =>
    intro l i
    exact List.Perm.refl l
  | succ f ih =>
    intro l i
    unfold heapifyDownAux
    by_cases h0 : downTarget c l i = i
    · rw [if_pos h0]
    · rw [if_neg h0]
      exact (ih _ _).trans (swapAt_perm l i (downTarget c l i))

theorem heapifyDown_perm {α : Type} (c : ℚ → ℚ → ℚ) (l : List (PQEntry α)) (i : Nat) :
    (heapifyDown c l i).Perm l :=
  heapifyDownAux_perm c _ l i

theorem enqueue_items_perm {α : Type} (q : PriorityQueue α) (a : α) (p : ℚ) :
    (q.enqueue a p).items.Perm (⟨a, p⟩ :: q.items) := by
  unfold enqueue
  refine (heapifyUp_perm q.compare (q.items ++ [⟨a, p⟩]) q.items.length).trans ?_
  exact List.perm_append_singleton _ _

theorem dequeue_of_items_nil {α : Type} (q : PriorityQueue α) (h : q.items = []) :
    q.dequeue = (none, q) := by
  unfold dequeue
  split
  · rfl
  · rename_i e tail heq
    rw [h] at heq
    cases heq

theorem dequeue_of_items_cons {α : Type} (q : PriorityQueue α) (e : PQEntry α)
    (tail : List (PQEntry α)) (h : q.items = e :: tail) :
    ∃ q', q.dequeue = (some e.item, q') ∧ (e :: q'.items).Perm q.items ∧
      q'.compare = q.compare := by
  by_cases htail : tail = []
  · subst htail
    refine ⟨{ q with items := [] }, ?_, ?_, rfl⟩
    · unfold dequeue
      simp only [h]
      simp
    · rw [h]
  · refine ⟨{ q with items := heapifyDown q.compare ((e :: tail.dropLast).set 0 (tail.getLast htail)) 0 }, ?_, ?_, rfl⟩
    · unfold dequeue
      simp only [h, List.dropLast_cons_of_ne_nil htail,
        List.getLast?_eq_getLast _ (List.cons_ne_nil e tail), List.getLast_cons htail]
      simp
    · have hset : (e :: tail.dropLast).set 0 (tail.getLast htail) =
          tail.getLast htail :: tail.dropLast := rfl
      have hperm := heapifyDown_perm q.compare
        ((e :: tail.dropLast).set 0 (tail.getLast htail)) 0
      rw [hset] at hperm
      have htl : (tail.getLast htail :: tail.dropLast).Perm tail := by
        refine ((List.perm_append_singleton _ _).symm).trans ?_
        rw [List.dropLast_append_getLast htail]
      rw [h]
      exact (List.Perm.cons e (hperm.trans htl))

end PriorityQueue

/-! ### The search-state invariant -/

namespace AStar

theorem Adjacent.symm {a b : Point2} (h : Adjacent a b) : Adjacent b a := by
  obtain ⟨h1, h2, h3⟩ := h
  exact ⟨by omega, by omega, fun e => h3 e.symm⟩


namespace ChainTo

theorem head_pos {cfg start closed m k ps} (h : ChainTo cfg start closed m k ps) :
    ∃ n, mapGet m k = some n ∧ ps.head? = some (Point2.mk n.x n.y) ∧
      encodeKey cfg n.x n.y = k := by
  cases h with
  | base k n h1 h2 h3 h4 h5 => exact ⟨n, h1, rfl, h4⟩
  | step k n pk q qs h1 h2 h3 h4 h5 h6 h7 => exact ⟨n, h1, rfl, h4⟩

theorem nonempty {cfg start closed m k ps} (h : ChainTo cfg start closed m k ps) :
    ps ≠ [] := by
  cases h <;> simp

theorem last_start {cfg start closed m k ps} (h : ChainTo cfg start closed m k ps) :
    ps.getLast? = some start := by
  induction h with
  | base k n h1 h2 h3 h4 h5 => simp [h3]
  | step k n pk q qs h1 h2 h3 h4 h5 h6 h7 ih =>
    rw [List.getLast?_cons_cons]
    exact ih

theorem points_valid {cfg start closed m k ps} (h : ChainTo cfg start closed m k ps) :
    ∀ p ∈ ps, isValidPoint cfg p := by
  induction h with
  | base k n h1 h2 h3 h4 h5 => simp [h5]
  | step k n pk q qs h1 h2 h3 h4 h5 h6 h7 ih =>
    intro p hp
    rcases List.mem_cons.mp hp with rfl | hp'
    · exact h5
    · exact ih p hp'

theorem chain_adj {cfg start closed m k ps} (h : ChainTo cfg start closed m k ps) :
    List.Chain' Adjacent ps := by
  induction h with
  | base k n h1 h2 h3 h4 h5 => simp
  | step k n pk q qs h1 h2 h3 h4 h5 h6 h7 ih =>
    exact List.chain'_cons.mpr ⟨h6, ih⟩

/-- Every key of the chain's tail is closed. -/
theorem tail_closed {cfg start closed m k ps} (h : ChainTo cfg start closed m k ps) :
    ∀ j ∈ (ps.map (keyOf cfg)).tail, j ∈ closed := by
  induction h with
  | base k n h1 h2 h3 h4 h5 => simp
  | step k n pk q qs h1 h2 h3 h4 h5 h6 h7 ih =>
    intro j hj
    simp only [List.map_cons, List.tail_cons] at hj ⊢
    rcases List.mem_cons.mp hj with rfl | hj'
    · obtain ⟨pn, hpm, hph, hpk⟩ := h7.head_pos
      simp only [List.head?_cons, Option.some.injEq] at hph
      subst hph
      have hq : keyOf cfg (Point2.mk pn.x pn.y) = pk := hpk
      rw [hq]
      exact h3
    · exact ih j hj'

/-- The head key of the chain. -/
theorem head_key {cfg start closed m k ps} (h : ChainTo cfg start closed m k ps) :
    (ps.map (keyOf cfg)).head? = some k := by
  obtain ⟨n, hm, hh, hk⟩ := h.head_pos
  cases ps with
  | nil => cases h.nonempty rfl
  | cons p rest =>
    simp only [List.head?_cons, Option.some.injEq] at hh
    subst hh
    simp only [List.map_cons, List.head?_cons, Option.some.injEq]
    exact hk

/-- All keys on a chain have a registered node. -/
theorem keys_registered {cfg start closed m k ps} (h : ChainTo cfg start closed m k ps) :
    ∀ j ∈ ps.map (keyOf cfg), ∃ n, mapGet m j = some n := by
  induction h with
  | base k n h1 h2 h3 h4 h5 =>
    intro j hj
    simp only [List.map_cons, List.map_nil, List.mem_singleton] at hj
    subst hj
    exact ⟨n, by simpa [keyOf, h4] using h1⟩
  | step k n pk q qs h1 h2 h3 h4 h5 h6 h7 ih =>
    intro j hj
    rcases List.mem_cons.mp hj with rfl | hj'
    · exact ⟨n, by simpa [keyOf, h4] using h1⟩
    · exact ih j hj'

theorem deterministic {cfg start closed m k ps ps'}
    (h : ChainTo cfg start closed m k ps) (h' : ChainTo cfg start closed m k ps') :
    ps = ps' := by
  induction h generalizing ps' with
  | base k n h1 h2 h3 h4 h5 =>
    cases h' with
    | base k n' g1 g2 g3 g4 g5 =>
      rw [h1] at g1
      cases g1
      rfl
    | step k n' pk q qs g1 g2 g3 g4 g5 g6 g7 =>
      rw [h1] at g1
      cases g1
      rw [h2] at g2
      cases g2
  | step k n pk q qs h1 h2 h3 h4 h5 h6 h7 ih =>
    cases h' with
    | base k n' g1 g2 g3 g4 g5 =>
      rw [h1] at g1
      cases g1
      rw [h2] at g2
      cases g2
    | step k n' pk' q' qs' g1 g2 g3 g4 g5 g6 g7 =>
      rw [h1] at g1
      cases g1
      rw [h2] at g2
      cases g2
      have := ih g7
      rw [this]

/-- Every key occurring on a chain roots a chain of no greater length. -/
theorem mem_key_subchain {cfg start closed m k ps}
    (h : ChainTo cfg start closed m k ps) :
    ∀ j ∈ ps.map (keyOf cfg), ∃ ss, ChainTo cfg start closed m j ss ∧
      ss.length ≤ ps.length := by
  induction h with
  | base k n h1 h2 h3 h4 h5 =>
    intro j hj
    simp only [List.map_cons, List.map_nil, List.mem_singleton] at hj
    have hj' : j = k := by rw [hj]; exact h4
    rw [hj']
    exact ⟨_, ChainTo.base k n h1 h2 h3 h4 h5, le_refl _⟩
  | step k n pk q qs h1 h2 h3 h4 h5 h6 h7 ih =>
    intro j hj
    simp only [List.map_cons] at hj
    rcases List.mem_cons.mp hj with hj0 | hj'
    · have hj1 : j = k := by rw [hj0]; exact h4
      rw [hj1]
      exact ⟨_, ChainTo.step k n pk q qs h1 h2 h3 h4 h5 h6 h7, le_refl _⟩
    · obtain ⟨ss, hss, hlen⟩ := ih j (by simpa using hj')
      refine ⟨ss, hss, ?_⟩
      simp only [List.length_cons] at hlen ⊢
      omega

/-- A chain never revisits a key. -/
theorem nodup_keys {cfg start closed m k ps} (h : ChainTo cfg start closed m k ps) :
    (ps.map (keyOf cfg)).Nodup := by
  induction h with
  | base k n h1 h2 h3 h4 h5 => simp
  | step k n pk q qs h1 h2 h3 h4 h5 h6 h7 ih =>
    simp only [List.map_cons, List.nodup_cons] at ih ⊢
    refine ⟨?_, ih⟩
    intro hmem
    have hk : keyOf cfg (Point2.mk n.x n.y) = k := h4
    rw [hk] at hmem
    obtain ⟨ss, hss, hlen⟩ :=
      ChainTo.mem_key_subchain h7 k (by simpa using hmem)
    have hfull := ChainTo.step k n pk q qs h1 h2 h3 h4 h5 h6 h7
    have heq := ChainTo.deterministic hss hfull
    rw [heq] at hlen
    simp only [List.length_cons] at hlen
    omega

/-- Updating the node map at a key not on the chain preserves the chain. -/
theorem frame {cfg start closed m k ps} (nk : Int) (v : Node)
    (h : ChainTo cfg start closed m k ps) (hnk : nk ∉ ps.map (keyOf cfg)) :
    ChainTo cfg start closed (mapSet m nk v) k ps := by
  induction h with
  | base k n h1 h2 h3 h4 h5 =>
    have hne : k ≠ nk := by
      intro e
      apply hnk
      simp only [List.map_cons, List.map_nil, List.mem_singleton]
      rw [← e]
      exact h4.symm
    refine ChainTo.base k n ?_ h2 h3 h4 h5
    rw [mapGet_mapSet_ne m nk k v hne]
    exact h1
  | step k n pk q qs h1 h2 h3 h4 h5 h6 h7 ih =>
    have hne : k ≠ nk := by
      intro e
      apply hnk
      simp only [List.map_cons]
      refine List.mem_cons.mpr (Or.inl ?_)
      rw [← e]
      exact h4.symm
    refine ChainTo.step k n pk q qs ?_ h2 h3 h4 h5 h6 ?_
    · rw [mapGet_mapSet_ne m nk k v hne]
      exact h1
    · refine ih ?_
      intro hmem
      apply hnk
      simp only [List.map_cons] at hmem ⊢
      exact List.mem_cons.mpr (Or.inr hmem)

/-- Growing the closed set preserves chains. -/
theorem closed_mono {cfg start closed closed' m k ps}
    (hsub : ∀ j ∈ closed, j ∈ closed') (h : ChainTo cfg start closed m k ps) :
    ChainTo cfg start closed' m k ps := by
  induction h with
  | base k n h1 h2 h3 h4 h5 => exact ChainTo.base k n h1 h2 h3 h4 h5
  | step k n pk q qs h1 h2 h3 h4 h5 h6 h7 ih =>
    exact ChainTo.step k n pk q qs h1 h2 (hsub pk h3) h4 h5 h6 ih

end ChainTo

theorem mapGet_some_mem_keys {β : Type} {m : List (Int × β)} {k : Int} {v : β}
    (h : mapGet m k = some v) : k ∈ m.map Prod.fst := by
  induction m with
  | nil => cases h
  | cons kv rest ih =>
    obtain ⟨k', v'⟩ := kv
    by_cases hk : k' = k
    · subst hk
      simp
    · simp only [mapGet, if_neg hk] at h
      simp only [List.map_cons, List.mem_cons]
      exact Or.inr (ih h)

/-- A chain is never longer than the node map. -/
theorem ChainTo.length_le {cfg start closed m k ps}
    (h : ChainTo cfg start closed m k ps) : ps.length ≤ m.length := by
  classical
  have hnd := h.nodup_keys
  have hsub : ∀ j ∈ ps.map (keyOf cfg), j ∈ m.map Prod.fst := by
    intro j hj
    obtain ⟨n, hn⟩ := h.keys_registered j hj
    exact mapGet_some_mem_keys hn
  have hcard : (ps.map (keyOf cfg)).length ≤ (m.map Prod.fst).length := by
    calc (ps.map (keyOf cfg)).length = (ps.map (keyOf cfg)).toFinset.card := by
          rw [List.toFinset_card_of_nodup hnd]
      _ ≤ (m.map Prod.fst).toFinset.card := by
          refine Finset.card_le_card ?_
          intro x hx
          rw [List.mem_toFinset] at hx ⊢
          exact hsub x hx
      _ ≤ (m.map Prod.fst).length := List.toFinset_card_le _
  simpa using hcard

/-- On a valid chain, the fueled parent walk reproduces the chain. -/
theorem chainRev_of_chain {cfg start closed m k ps}
    (h : ChainTo cfg start closed m k ps) :
    ∀ fuel, ps.length ≤ fuel → chainRev m k fuel = ps := by
  induction h with
  | base k n h1 h2 h3 h4 h5 =>
    intro fuel hfuel
    match fuel with
    | f + 1 =>
      unfold chainRev
      simp only [h1, h2]
  | step k n pk q qs h1 h2 h3 h4 h5 h6 h7 ih =>
    intro fuel hfuel
    match fuel with
    | f + 1 =>
      unfold chainRev
      simp only [h1, h2]
      have hrec : chainRev m pk f = q :: qs := by
        refine ih f ?_
        simp only [List.length_cons] at hfuel ⊢
        omega
      rw [hrec]

/-- `reconstructPath` on a valid chain returns the reversed chain. -/
theorem reconstructPath_of_chain {cfg start closed m k ps}
    (h : ChainTo cfg start closed m k ps) :
    reconstructPath m k = ps.reverse := by
  unfold reconstructPath
  rw [chainRev_of_chain h (m.length + 1) (Nat.le_succ_of_le h.length_le)]

/-- The coordinate encoding is injective on in-bounds points. -/
theorem keyOf_inj {cfg : Config} {p q : Point2} (hp : isValidPoint cfg p)
    (hq : isValidPoint cfg q) (h : keyOf cfg p = keyOf cfg q) : p = q := by
  obtain ⟨hpx0, hpxw, hpy0, hpyh⟩ := hp
  obtain ⟨hqx0, hqxw, hqy0, hqyh⟩ := hq
  unfold keyOf encodeKey at h
  have hy : p.y = q.y := by
    rcases lt_trichotomy p.y q.y with hlt | heq | hgt
    · exfalso
      have h1 : p.y + 1 ≤ q.y := hlt
      have h2 : (p.y + 1) * cfg.width ≤ q.y * cfg.width :=
        mul_le_mul_of_nonneg_right h1 (by linarith)
      nlinarith
    · exact heq
    · exfalso
      have h1 : q.y + 1 ≤ p.y := hgt
      have h2 : (q.y + 1) * cfg.width ≤ p.y * cfg.width :=
        mul_le_mul_of_nonneg_right h1 (by linarith)
      nlinarith
  have hx : p.x = q.x := by
    rw [hy] at h
    linarith
  cases p
  cases q
  simp only at hx hy
  rw [hx, hy]

/-- Encoded keys of in-bounds points lie in `[0, width*height)`. -/
theorem keyOf_range {cfg : Config} {p : Point2} (hp : isValidPoint cfg p) :
    0 ≤ keyOf cfg p ∧ keyOf cfg p < cfg.width * cfg.height := by
  obtain ⟨hx0, hxw, hy0, hyh⟩ := hp
  unfold keyOf encodeKey
  constructor
  · have : 0 ≤ p.y * cfg.width := mul_nonneg hy0 (by linarith)
    linarith
  · have h1 : p.y + 1 ≤ cfg.height := hyh
    have h2 : (p.y + 1) * cfg.width ≤ cfg.height * cfg.width :=
      mul_le_mul_of_nonneg_right h1 (by linarith)
    nlinarith [mul_comm cfg.height cfg.width]

/-- A duplicate-free list of in-bounds keys has at most `width*height`
elements. -/
theorem length_le_cellBound {cfg : Config} {l : List Int} (hnd : l.Nodup)
    (hbd : ∀ k ∈ l, 0 ≤ k ∧ k < cfg.width * cfg.height) :
    l.length ≤ cellBound cfg := by
  classical
  have hinj : ∀ x ∈ l, ∀ y ∈ l, x.toNat = y.toNat → x = y := by
    intro x hx y hy hxy
    have h1 := (hbd x hx).1
    have h2 := (hbd y hy).1
    omega
  have hnd' : (l.map Int.toNat).Nodup := hnd.map_on hinj
  have hlt : ∀ x ∈ l.map Int.toNat, x < cellBound cfg := by
    intro x hx
    rw [List.mem_map] at hx
    obtain ⟨k, hk, rfl⟩ := hx
    have h1 := (hbd k hk).1
    have h2 := (hbd k hk).2
    unfold cellBound
    omega
  have hsub : (l.map Int.toNat).toFinset ⊆ Finset.range (cellBound cfg) := by
    intro x hx
    rw [List.mem_toFinset] at hx
    rw [Finset.mem_range]
    exact hlt x hx
  calc l.length = (l.map Int.toNat).length := by simp
    _ = (l.map Int.toNat).toFinset.card := (List.toFinset_card_of_nodup hnd').symm
    _ ≤ (Finset.range (cellBound cfg)).card := Finset.card_le_card hsub
    _ = cellBound cfg := Finset.card_range _

/-- Membership in `getNeighbors` gives bounds and adjacency. -/
theorem mem_getNeighbors {cfg : Config} {x y : Int} {p : Point2}
    (h : p ∈ getNeighbors cfg x y) :
    isValidPoint cfg p ∧ Adjacent p ⟨x, y⟩ := by
  unfold getNeighbors at h
  rw [List.mem_filterMap] at h
  obtain ⟨d, hd, hp⟩ := h
  dsimp only at hp
  split at hp
  · rename_i hbounds
    cases hp
    refine ⟨hbounds, ?_⟩
    have hdmem : d ∈ CARDINAL_DIRECTIONS ++ DIAGONAL_DIRECTIONS ∨ d ∈ CARDINAL_DIRECTIONS := by
      unfold neighborDirections at hd
      split at hd
      · exact Or.inl hd
      · exact Or.inr hd
    have hdval : d ∈ CARDINAL_DIRECTIONS ++ DIAGONAL_DIRECTIONS := by
      rcases hdmem with h1 | h1
      · exact h1
      · exact List.mem_append_left _ h1
    unfold CARDINAL_DIRECTIONS DIAGONAL_DIRECTIONS at hdval
    unfold Adjacent
    simp only [List.cons_append, List.nil_append, List.mem_cons,
      List.not_mem_nil, or_false] at hdval
    rcases hdval with rfl | rfl | rfl | rfl | rfl | rfl | rfl | rfl <;>
      refine ⟨by simp, by simp, ?_⟩ <;>
      · intro he
        rw [Point2.mk.injEq] at he
        omega
  · cases hp

/-- A chain avoids any key that is neither its head nor closed. -/
theorem ChainTo.not_mem_keys {cfg start closed m k ps}
    (h : ChainTo cfg start closed m k ps) {nk : Int}
    (hne : nk ≠ k) (hnc : nk ∉ closed) : nk ∉ ps.map (keyOf cfg) := by
  intro hmem
  cases ps with
  | nil => cases h.nonempty rfl
  | cons p rest =>
    have hk := h.head_key
    simp only [List.map_cons, List.head?_cons, Option.some.injEq] at hk
    rcases List.mem_cons.mp hmem with heq | hmem'
    · exact hne (heq.trans hk)
    · exact hnc (h.tail_closed nk (by simpa using hmem'))

/-- Adding a node at a key that is neither open nor closed preserves the
invariant. -/
theorem SearchInv.add_inactive_node {cfg start} {st : SearchState}
    (hinv : SearchInv cfg start st) {nk : Int} {n : Node}
    (hko : nk ∉ st.openSet) (hkc : nk ∉ st.closedSet)
    (hkey : encodeKey cfg n.x n.y = nk) (hval : isValidPoint cfg ⟨n.x, n.y⟩) :
    SearchInv cfg start { st with nodeMap := mapSet st.nodeMap nk n } := by
  refine ⟨hinv.heap_perm, hinv.open_nodup, hinv.closed_nodup, hinv.disj, ?_, ?_, ?_⟩
  · intro k n' hmap
    by_cases hk : k = nk
    · subst hk
      rw [mapGet_mapSet_self] at hmap
      cases hmap
      exact ⟨hkey, hval⟩
    · rw [mapGet_mapSet_ne _ _ _ _ hk] at hmap
      exact hinv.node_keys k n' hmap
  · intro k hk
    have hkn : k ≠ nk := by
      rintro rfl
      rcases hk with h | h
      · exact hko h
      · exact hkc h
    obtain ⟨n', hn'⟩ := hinv.active_node k hk
    refine ⟨n', ?_⟩
    rw [mapGet_mapSet_ne _ _ _ _ hkn]
    exact hn'
  · intro k hk
    have hkn : nk ≠ k := by
      rintro rfl
      rcases hk with h | h
      · exact hko h
      · exact hkc h
    obtain ⟨ps, hps⟩ := hinv.chains k hk
    exact ⟨ps, hps.frame nk n (hps.not_mem_keys hkn hkc)⟩

/-- Writing a node whose parent is the (closed) current node: the
invariant is preserved and the written key acquires a valid chain. -/
theorem SearchInv.set_linked_node {cfg start} {st : SearchState}
    (hinv : SearchInv cfg start st) {currentKey : Int} {cur : Node} {nk : Int} (n' : Node)
    (hck : currentKey ∈ st.closedSet)
    (hcn : mapGet st.nodeMap currentKey = some cur)
    (hkc : nk ∉ st.closedSet)
    (hkey : encodeKey cfg n'.x n'.y = nk) (hval : isValidPoint cfg ⟨n'.x, n'.y⟩)
    (hpar : n'.parent = some currentKey)
    (hadj : Adjacent ⟨n'.x, n'.y⟩ ⟨cur.x, cur.y⟩) :
    SearchInv cfg start { st with nodeMap := mapSet st.nodeMap nk n' } ∧
      ∃ ps, ChainTo cfg start st.closedSet (mapSet st.nodeMap nk n') nk ps := by
  have hnkck : nk ≠ currentKey := by
    rintro rfl
    exact hkc hck
  have hchain : ∃ ps, ChainTo cfg start st.closedSet (mapSet st.nodeMap nk n') nk ps := by
    obtain ⟨psc, hpsc⟩ := hinv.chains currentKey (Or.inr hck)
    have hpsc' := hpsc.frame nk n' (hpsc.not_mem_keys hnkck hkc)
    obtain ⟨cn, hcn', hhead, _⟩ := hpsc.head_pos
    rw [hcn] at hcn'
    cases hcn'
    cases psc with
    | nil => cases hpsc.nonempty rfl
    | cons q qs =>
      simp only [List.head?_cons, Option.some.injEq] at hhead
      refine ⟨_, ChainTo.step nk n' currentKey q qs ?_ hpar hck hkey hval ?_ hpsc'⟩
      · exact mapGet_mapSet_self ..
      · rw [hhead]
        exact hadj
  refine ⟨⟨hinv.heap_perm, hinv.open_nodup, hinv.closed_nodup, hinv.disj, ?_, ?_, ?_⟩, hchain⟩
  · intro k m hmap
    by_cases hk : k = nk
    · subst hk
      rw [mapGet_mapSet_self] at hmap
      cases hmap
      exact ⟨hkey, hval⟩
    · rw [mapGet_mapSet_ne _ _ _ _ hk] at hmap
      exact hinv.node_keys k m hmap
  · intro k hk
    by_cases hkn : k = nk
    · subst hkn
      exact ⟨n', mapGet_mapSet_self ..⟩
    · obtain ⟨m, hm⟩ := hinv.active_node k hk
      refine ⟨m, ?_⟩
      rw [mapGet_mapSet_ne _ _ _ _ hkn]
      exact hm
  · intro k hk
    by_cases hkn : k = nk
    · subst hkn
      exact hchain
    · obtain ⟨ps, hps⟩ := hinv.chains k hk
      exact ⟨ps, hps.frame nk n' (hps.not_mem_keys (fun e => hkn e.symm) hkc)⟩

/-- The invariant only mentions the heap, sets and node map, so it
transfers across a ghost-counter update. -/
theorem SearchInv.with_costCalls {cfg start} {st : SearchState} (h : SearchInv cfg start st)
    (c : Nat) : SearchInv cfg start { st with costCalls := c } :=
  ⟨h.heap_perm, h.open_nodup, h.closed_nodup, h.disj, h.node_keys, h.active_node, h.chains⟩

/-- Specification of `getOrCreateNode` under the invariant: the invariant
is preserved, the returned node is registered at the key with matching
coordinates, the scratch sets and heap are untouched, and other node-map
entries are untouched. -/
theorem getOrCreateNode_spec {cfg start} {st : SearchState} (hinv : SearchInv cfg start st)
    (nk : Int) (pos : Point2) (hkey : keyOf cfg pos = nk) (hval : isValidPoint cfg pos)
    (hkc : nk ∉ st.closedSet) :
    SearchInv cfg start (getOrCreateNode st nk pos).1 ∧
      mapGet (getOrCreateNode st nk pos).1.nodeMap nk = some (getOrCreateNode st nk pos).2 ∧
      encodeKey cfg (getOrCreateNode st nk pos).2.x (getOrCreateNode st nk pos).2.y = nk ∧
      isValidPoint cfg ⟨(getOrCreateNode st nk pos).2.x, (getOrCreateNode st nk pos).2.y⟩ ∧
      (getOrCreateNode st nk pos).1.openSet = st.openSet ∧
      (getOrCreateNode st nk pos).1.closedSet = st.closedSet ∧
      (getOrCreateNode st nk pos).1.openList = st.openList ∧
      (getOrCreateNode st nk pos).1.costCalls = st.costCalls ∧
      (∀ j, j ≠ nk → mapGet (getOrCreateNode st nk pos).1.nodeMap j = mapGet st.nodeMap j) ∧
      ((mapGet st.nodeMap nk = none → (getOrCreateNode st nk pos).2.g = 0 ∧ nk ∉ st.openSet))
    := by
  unfold getOrCreateNode
  cases hget : mapGet st.nodeMap nk with
  | some n =>
    obtain ⟨hk, hv⟩ := hinv.node_keys nk n hget
    exact ⟨hinv, hget, hk, hv, rfl, rfl, rfl, rfl, fun j _ => rfl, by
      intro h
      cases h⟩
  | none =>
    have hko : nk ∉ st.openSet := by
      intro hmem
      obtain ⟨n', hn'⟩ := hinv.active_node _ (Or.inl hmem)
      rw [hget] at hn'
      cases hn'
    have hkey' : encodeKey cfg (getNode pos.x pos.y).x (getNode pos.x pos.y).y = nk := hkey
    have hval' : isValidPoint cfg ⟨(getNode pos.x pos.y).x, (getNode pos.x pos.y).y⟩ := hval
    refine ⟨hinv.add_inactive_node hko hkc hkey' hval', mapGet_mapSet_self .., hkey, hval,
      rfl, rfl, rfl, rfl, ?_, fun _ => ⟨rfl, hko⟩⟩
    intro j hj
    exact mapGet_mapSet_ne _ _ _ _ hj

/-- Invariant preservation across the body of the neighbor loop, plus:
the closed set is untouched, the current node's entry is untouched, and
the heap and open set grow together by at most one entry. -/
theorem processNeighbor_inv {cfg : Config} {start : Point2} {st : SearchState}
    (endX endY : Int) {currentKey : Int} {cur : Node} {neighborPos : Point2}
    (hinv : SearchInv cfg start st)
    (hck : currentKey ∈ st.closedSet)
    (hcn : mapGet st.nodeMap currentKey = some cur)
    (hnb : neighborPos ∈ getNeighbors cfg cur.x cur.y) :
    SearchInv cfg start (processNeighbor cfg endX endY currentKey cur st neighborPos) ∧
      (processNeighbor cfg endX endY currentKey cur st neighborPos).closedSet
        = st.closedSet ∧
      mapGet (processNeighbor cfg endX endY currentKey cur st neighborPos).nodeMap
        currentKey = some cur ∧
      ∃ d : Nat, d ≤ 1 ∧
        (processNeighbor cfg endX endY currentKey cur st neighborPos).openList.items.length
          = st.openList.items.length + d ∧
        (processNeighbor cfg endX endY currentKey cur st neighborPos).openSet.length
          = st.openSet.length + d := by
  obtain ⟨hnpv, hnadj⟩ := mem_getNeighbors hnb
  unfold processNeighbor
  dsimp only
  by_cases hclosed : encodeKey cfg neighborPos.x neighborPos.y ∈ st.closedSet
  · rw [if_pos hclosed]
    exact ⟨hinv, rfl, hcn, 0, by omega, rfl, rfl⟩
  · rw [if_neg hclosed]
    have hnkck : encodeKey cfg neighborPos.x neighborPos.y ≠ currentKey := by
      rintro heq
      rw [heq] at hclosed
      exact hclosed hck
    obtain ⟨hinv1, hreg, hnkey, hnval, hopen1, hclosed1, hlist1, hcost1, hother1, hfresh1⟩ :=
      getOrCreateNode_spec hinv (encodeKey cfg neighborPos.x neighborPos.y)
        neighborPos rfl hnpv hclosed
    set res := getOrCreateNode st (encodeKey cfg neighborPos.x neighborPos.y) neighborPos
      with hres
    clear_value res
    obtain ⟨st1, nb⟩ := res
    dsimp only at hinv1 hreg hnkey hnval hopen1 hclosed1 hlist1 hcost1 hother1 hfresh1 ⊢
    have hcn1 : mapGet st1.nodeMap currentKey = some cur := by
      rw [hother1 currentKey (fun e => hnkck e.symm)]
      exact hcn
    have hnbpos : Point2.mk nb.x nb.y = neighborPos := by
      refine keyOf_inj hnval hnpv ?_
      show encodeKey cfg nb.x nb.y = encodeKey cfg neighborPos.x neighborPos.y
      exact hnkey
    cases hcost : cfg.getStepCost ⟨cur.x, cur.y⟩ neighborPos with
    | none =>
      refine ⟨hinv1.with_costCalls _, ?_, hcn1, 0, by omega, ?_, ?_⟩
      · show st1.closedSet = st.closedSet
        exact hclosed1
      · show st1.openList.items.length = st.openList.items.length + 0
        simp [hlist1]
      · show st1.openSet.length = st.openSet.length + 0
        simp [hopen1]
    | some base =>
      dsimp only
      generalize (if isDiagonalMove ⟨cur.x, cur.y⟩ neighborPos then DIAGONAL_COST else (1 : ℚ)) = dc
      split
      · rename_i himp
        refine ⟨hinv1.with_costCalls _, ?_, hcn1, 0, by omega, ?_, ?_⟩
        · show st1.closedSet = st.closedSet
          exact hclosed1
        · show st1.openList.items.length = st.openList.items.length + 0
          simp [hlist1]
        · show st1.openSet.length = st.openSet.length + 0
          simp [hopen1]
      · rename_i himp
        -- the update branch: write the node, then possibly enqueue
        have hinv2 : SearchInv cfg start { st1 with costCalls := st1.costCalls + 1 } :=
          hinv1.with_costCalls _
        have hck2 : currentKey ∈ ({ st1 with costCalls := st1.costCalls + 1 }
            : SearchState).closedSet := by
          show currentKey ∈ st1.closedSet
          rw [hclosed1]
          exact hck
        have hkc2 : encodeKey cfg neighborPos.x neighborPos.y ∉
            ({ st1 with costCalls := st1.costCalls + 1 } : SearchState).closedSet := by
          show encodeKey cfg neighborPos.x neighborPos.y ∉ st1.closedSet
          rw [hclosed1]
          exact hclosed
        have hadj2 : Adjacent ⟨nb.x, nb.y⟩ ⟨cur.x, cur.y⟩ := by
          rw [hnbpos]
          exact hnadj
        obtain ⟨hinv3, psn, hpsn⟩ :=
          SearchInv.set_linked_node hinv2
            { nb with
              parent := some currentKey
              g := cur.g + base * dc
              h := heuristic neighborPos.x neighborPos.y endX endY
              f := cur.g + base * dc + heuristic neighborPos.x neighborPos.y endX endY }
            hck2 hcn1 hkc2 hnkey hnval rfl hadj2
        unfold writeNeighbor
        dsimp only at hinv3 hpsn ⊢
        split
        · rename_i hopen
          refine ⟨hinv3, ?_, ?_, 0, by omega, ?_, ?_⟩
          · show st1.closedSet = st.closedSet
            exact hclosed1
          · show mapGet (mapSet st1.nodeMap (encodeKey cfg neighborPos.x neighborPos.y) _)
              currentKey = some cur
            rw [mapGet_mapSet_ne _ _ _ _ (fun e => hnkck e.symm)]
            exact hcn1
          · show st1.openList.items.length = st.openList.items.length + 0
            simp [hlist1]
          · show st1.openSet.length = st.openSet.length + 0
            simp [hopen1]
        · rename_i hopen
          have hopen' : encodeKey cfg neighborPos.x neighborPos.y ∉ st1.openSet := hopen
          have hopenst : encodeKey cfg neighborPos.x neighborPos.y ∉ st.openSet := by
            rw [← hopen1]
            exact hopen'
          have hsetadd : ∀ s : List Int, s = st1.openSet →
              setAdd s (encodeKey cfg neighborPos.x neighborPos.y)
                = encodeKey cfg neighborPos.x neighborPos.y :: st1.openSet := by
            intro s hs
            subst hs
            exact setAdd_not_mem hopen'
          refine ⟨⟨?_, ?_, hinv3.closed_nodup, ?_, hinv3.node_keys, ?_, ?_⟩,
            ?_, ?_, 1, by omega, ?_, ?_⟩
          · -- heap_perm
            show (heapKeys (st1.openList.enqueue (encodeKey cfg neighborPos.x neighborPos.y)
              _)).Perm (setAdd st1.openSet (encodeKey cfg neighborPos.x neighborPos.y))
            rw [hsetadd _ rfl]
            unfold heapKeys
            refine ((PriorityQueue.enqueue_items_perm _ _ _).map PQEntry.item).trans ?_
            simp only [List.map_cons]
            refine List.Perm.cons _ ?_
            rw [hlist1]
            exact hinv.heap_perm.trans (by rw [hopen1])
          · -- open_nodup
            show (setAdd st1.openSet (encodeKey cfg neighborPos.x neighborPos.y)).Nodup
            rw [hsetadd _ rfl]
            exact List.nodup_cons.mpr ⟨hopen', hinv1.open_nodup⟩
          · -- disj
            intro k hk
            show k ∉ st1.closedSet
            rcases mem_setAdd.mp (by
              rw [hsetadd _ rfl] at hk
              exact mem_setAdd.mpr (List.mem_cons.mp hk)) with heq | hmem
            · subst heq
              rw [hclosed1]
              exact hclosed
            · exact hinv1.disj k hmem
          · -- active_node
            intro k hk
            by_cases hkn : k = encodeKey cfg neighborPos.x neighborPos.y
            · subst hkn
              exact ⟨_, mapGet_mapSet_self ..⟩
            · refine hinv3.active_node k ?_
              rcases hk with hk | hk
              · rw [hsetadd _ rfl] at hk
                rcases List.mem_cons.mp hk with heq | hmem
                · exact absurd heq hkn
                · exact Or.inl hmem
              · exact Or.inr hk
          · -- chains
            intro k hk
            by_cases hkn : k = encodeKey cfg neighborPos.x neighborPos.y
            · subst hkn
              exact ⟨psn, hpsn⟩
            · refine hinv3.chains k ?_
              rcases hk with hk | hk
              · rw [hsetadd _ rfl] at hk
                rcases List.mem_cons.mp hk with heq | hmem
                · exact absurd heq hkn
                · exact Or.inl hmem
              · exact Or.inr hk
          · show st1.closedSet = st.closedSet
            exact hclosed1
          · show mapGet (mapSet st1.nodeMap (encodeKey cfg neighborPos.x neighborPos.y) _)
              currentKey = some cur
            rw [mapGet_mapSet_ne _ _ _ _ (fun e => hnkck e.symm)]
            exact hcn1
          · show (st1.openList.enqueue (encodeKey cfg neighborPos.x neighborPos.y)
              _).items.length = st.openList.items.length + 1
            rw [(PriorityQueue.enqueue_items_perm _ _ _).length_eq]
            simp only [List.length_cons]
            rw [hlist1]
          · show (setAdd st1.openSet (encodeKey cfg neighborPos.x neighborPos.y)).length
              = st.openSet.length + 1
            rw [hsetadd _ rfl]
            simp only [List.length_cons]
            rw [hopen1]

/-- Fold preservation helper. -/
theorem foldl_preserve {α β : Type} {P : β → Prop} {f : β → α → β} :
    ∀ (l : List α) (b : β), P b → (∀ x ∈ l, ∀ s, P s → P (f s x)) → P (l.foldl f b)
  | [], _, hb, _ => hb
  | x :: xs, b, hb, hstep =>
    foldl_preserve xs (f b x) (hstep x (List.mem_cons_self x xs) b hb)
      (fun y hy => hstep y (List.mem_cons_of_mem _ hy))

/-- The open and closed sets together never exceed the cell count. -/
theorem SearchInv.sets_bound {cfg start} {st : SearchState} (hinv : SearchInv cfg start st) :
    st.openSet.length + st.closedSet.length ≤ cellBound cfg := by
  have hnd : (st.openSet ++ st.closedSet).Nodup := by
    rw [List.nodup_append]
    exact ⟨hinv.open_nodup, hinv.closed_nodup, fun a ha hb => hinv.disj a ha hb⟩
  have hbd : ∀ k ∈ st.openSet ++ st.closedSet, 0 ≤ k ∧ k < cfg.width * cfg.height := by
    intro k hk
    have hk' : k ∈ st.openSet ∨ k ∈ st.closedSet := List.mem_append.mp hk
    obtain ⟨n, hn⟩ := hinv.active_node k hk'
    obtain ⟨hkey, hval⟩ := hinv.node_keys k n hn
    have := keyOf_range hval
    rw [show keyOf cfg (Point2.mk n.x n.y) = k from hkey] at this
    exact this
  have := length_le_cellBound hnd hbd
  simpa using this

/-- Dequeue-step analysis: on a `goOn` outcome the invariant is
preserved, the measure strictly decreases, and the popped key moves from
the open to the closed set. -/
theorem searchStep_goOn_spec {cfg : Config} {start : Point2} {st st' : SearchState}
    {endX endY endKey : Int} (hinv : SearchInv cfg start st)
    (hstep : searchStep cfg endX endY endKey st = .goOn st') :
    SearchInv cfg start st' ∧ searchMeasure cfg st' + 1 = searchMeasure cfg st ∧
      ∃ ck, ck ∈ st.openSet ∧ ck ∉ st.closedSet ∧ ck ≠ endKey ∧
        st'.closedSet = setAdd st.closedSet ck ∧
        (st.openList.dequeue).1 = some ck := by
  unfold searchStep at hstep
  by_cases hempty : st.openList.isEmpty
  · rw [if_pos hempty] at hstep
    cases hstep
  · rw [if_neg hempty] at hstep
    have hne : st.openList.items ≠ [] := by
      intro h
      exact hempty (by simp [PriorityQueue.isEmpty, h])
    obtain ⟨e, tail, hitems⟩ : ∃ e tail, st.openList.items = e :: tail := by
      cases h : st.openList.items with
      | nil => exact absurd h hne
      | cons e tail => exact ⟨e, tail, rfl⟩
    obtain ⟨q', hdeq, hperm, hcmp⟩ := PriorityQueue.dequeue_of_items_cons _ e tail hitems
    rw [hdeq] at hstep
    dsimp only at hstep
    have hememe : e ∈ st.openList.items := by
      rw [hitems]
      exact List.mem_cons_self e tail
    have hckopen : e.item ∈ st.openSet :=
      hinv.heap_perm.mem_iff.mp (List.mem_map_of_mem PQEntry.item hememe)
    have hckcl : e.item ∉ st.closedSet := hinv.disj _ hckopen
    by_cases hend : e.item = endKey
    · rw [if_pos hend] at hstep
      cases hstep
    · rw [if_neg hend] at hstep
      -- the invariant after dequeue, erase and close
      have hkeysperm : (heapKeys q').Perm (st.openSet.erase e.item) := by
        have h1 : (e.item :: heapKeys q').Perm st.openSet :=
          (hperm.map PQEntry.item).trans hinv.heap_perm
        exact (List.cons_perm_iff_perm_erase.mp h1).2
      have hinvA : SearchInv cfg start
          { st with
            openList := q'
            openSet := st.openSet.erase e.item
            closedSet := setAdd st.closedSet e.item } := by
        refine ⟨hkeysperm, hinv.open_nodup.erase _, setAdd_nodup hinv.closed_nodup, ?_,
          hinv.node_keys, ?_, ?_⟩
        · intro k hk
          have hk1 := (hinv.open_nodup.mem_erase_iff).mp hk
          intro hmem
          rcases mem_setAdd.mp hmem with heq | hmem'
          · exact hk1.1 heq
          · exact hinv.disj k hk1.2 hmem'
        · intro k hk
          refine hinv.active_node k ?_
          rcases hk with hk | hk
          · exact Or.inl (List.mem_of_mem_erase hk)
          · rcases mem_setAdd.mp hk with heq | hmem'
            · subst heq
              exact Or.inl hckopen
            · exact Or.inr hmem'
        · intro k hk
          have hk' : k ∈ st.openSet ∨ k ∈ st.closedSet := by
            rcases hk with hk | hk
            · exact Or.inl (List.mem_of_mem_erase hk)
            · rcases mem_setAdd.mp hk with heq | hmem'
              · subst heq
                exact Or.inl hckopen
              · exact Or.inr hmem'
          obtain ⟨ps, hps⟩ := hinv.chains k hk'
          exact ⟨ps, hps.closed_mono (fun j hj => mem_setAdd.mpr (Or.inr hj))⟩
      obtain ⟨cur, hcur⟩ := hinv.active_node e.item (Or.inl hckopen)
      rw [hcur] at hstep
      dsimp only at hstep
      obtain ⟨hcurkey, hcurval⟩ := hinv.node_keys e.item cur hcur
      -- the fold over the neighbors
      have hfold := foldl_preserve (P := fun s =>
          SearchInv cfg start s ∧
            s.closedSet = setAdd st.closedSet e.item ∧
            mapGet s.nodeMap e.item = some cur ∧
            s.openList.items.length + (st.openSet.erase e.item).length
              = q'.items.length + s.openSet.length)
        (getNeighbors cfg cur.x cur.y)
        { st with
          openList := q'
          openSet := st.openSet.erase e.item
          closedSet := setAdd st.closedSet e.item }
        ⟨hinvA, rfl, hcur, rfl⟩
        (by
          intro npos hmem s hs
          obtain ⟨hs1, hs2, hs3, hs4⟩ := hs
          have hckin : e.item ∈ s.closedSet := by
            rw [hs2]
            exact mem_setAdd.mpr (Or.inl rfl)
          obtain ⟨hs1', hclo, hcur', d, hd, hlen1, hlen2⟩ :=
            processNeighbor_inv endX endY hs1 hckin hs3 hmem
          refine ⟨hs1', by rw [hclo, hs2], hcur', ?_⟩
          rw [hlen1, hlen2]
          omega)
      cases hstep
      obtain ⟨hinv', hclosed', hcur', hlen'⟩ := hfold
      refine ⟨hinv', ?_, e.item, hckopen, hckcl, hend, hclosed', by rw [hdeq]⟩
      -- the measure decreases by exactly one
      have hq'len : q'.items.length + 1 = st.openList.items.length := by
        have h2 := hperm.length_eq
        simp only [List.length_cons] at h2
        omega
      have herase : (st.openSet.erase e.item).length + 1 = st.openSet.length := by
        rw [List.length_erase_of_mem hckopen]
        have : st.openSet.length ≠ 0 := by
          intro h0
          rw [List.length_eq_zero] at h0
          rw [h0] at hckopen
          cases hckopen
        omega
      have hcadd : ((setAdd st.closedSet e.item).length) = st.closedSet.length + 1 := by
        rw [setAdd_not_mem hckcl]
        rfl
      have hbound := hinv.sets_bound
      have hbound' := hinv'.sets_bound
      rw [hclosed', hcadd] at hbound'
      unfold searchMeasure
      rw [hclosed', hcadd]
      omega

/-- Dequeue-step analysis for the `found` outcome: the returned path is
the reversed parent chain of the end key in the pre-step node map. -/
theorem searchStep_found_spec {cfg : Config} {start : Point2} {st st' : SearchState}
    {endX endY endKey : Int} {p : List Point2} (hinv : SearchInv cfg start st)
    (hstep : searchStep cfg endX endY endKey st = .found p st') :
    ∃ ps, ChainTo cfg start st.closedSet st.nodeMap endKey ps ∧ p = ps.reverse := by
  unfold searchStep at hstep
  by_cases hempty : st.openList.isEmpty
  · rw [if_pos hempty] at hstep
    cases hstep
  · rw [if_neg hempty] at hstep
    have hne : st.openList.items ≠ [] := by
      intro h
      exact hempty (by simp [PriorityQueue.isEmpty, h])
    obtain ⟨e, tail, hitems⟩ : ∃ e tail, st.openList.items = e :: tail := by
      cases h : st.openList.items with
      | nil => exact absurd h hne
      | cons e tail => exact ⟨e, tail, rfl⟩
    obtain ⟨q', hdeq, hperm, hcmp⟩ := PriorityQueue.dequeue_of_items_cons _ e tail hitems
    rw [hdeq] at hstep
    dsimp only at hstep
    have hememe : e ∈ st.openList.items := by
      rw [hitems]
      exact List.mem_cons_self e tail
    have hckopen : e.item ∈ st.openSet :=
      hinv.heap_perm.mem_iff.mp (List.mem_map_of_mem PQEntry.item hememe)
    by_cases hend : e.item = endKey
    · rw [if_pos hend] at hstep
      cases hstep
      obtain ⟨ps, hps⟩ := hinv.chains e.item (Or.inl hckopen)
      rw [hend] at hps
      exact ⟨ps, hps, (by rw [hend]; exact reconstructPath_of_chain hps)⟩
    · rw [if_neg hend] at hstep
      cases hget : mapGet st.nodeMap e.item with
      | none =>
        rw [hget] at hstep
        cases hstep
      | some cur =>
        rw [hget] at hstep
        cases hstep

/-- Dequeue-step analysis for the `exhausted` outcome: the open heap was
already empty and the state is returned unchanged. -/
theorem searchStep_exhausted_spec {cfg : Config} {st st' : SearchState}
    {endX endY endKey : Int}
    (hstep : searchStep cfg endX endY endKey st = .exhausted st') :
    st' = st ∧ st.openList.items = [] := by
  unfold searchStep at hstep
  by_cases hempty : st.openList.isEmpty
  · rw [if_pos hempty] at hstep
    cases hstep
    exact ⟨rfl, by simpa [PriorityQueue.isEmpty] using hempty⟩
  · rw [if_neg hempty] at hstep
    have hne : st.openList.items ≠ [] := by
      intro h
      exact hempty (by simp [PriorityQueue.isEmpty, h])
    obtain ⟨e, tail, hitems⟩ : ∃ e tail, st.openList.items = e :: tail := by
      cases h : st.openList.items with
      | nil => exact absurd h hne
      | cons e tail => exact ⟨e, tail, rfl⟩
    obtain ⟨q', hdeq, hperm, hcmp⟩ := PriorityQueue.dequeue_of_items_cons _ e tail hitems
    rw [hdeq] at hstep
    dsimp only at hstep
    by_cases hend : e.item = endKey
    · rw [if_pos hend] at hstep
      cases hstep
    · rw [if_neg hend] at hstep
      cases hget : mapGet st.nodeMap e.item with
      | none =>
        rw [hget] at hstep
        cases hstep
      | some cur =>
        rw [hget] at hstep
        cases hstep

/-- Along the loop, a `found` outcome always comes from an invariant
state whose node map realizes the returned path as a reversed chain. -/
theorem searchLoop_found_spec {cfg : Config} {start : Point2} {endX endY endKey : Int} :
    ∀ (fuel : Nat) (st : SearchState) {p : List Point2} {stf : SearchState},
      SearchInv cfg start st →
      searchLoop cfg endX endY endKey fuel st = .found p stf →
      ∃ stm ps, SearchInv cfg start stm ∧
        ChainTo cfg start stm.closedSet stm.nodeMap endKey ps ∧ p = ps.reverse := by
  intro fuel
  induction fuel with
  | zero =>
    intro st p stf hinv hloop
    cases hloop
  | succ f ih =>
    intro st p stf hinv hloop
    unfold searchLoop at hloop
    cases hstep : searchStep cfg endX endY endKey st with
    | exhausted st1 =>
      rw [hstep] at hloop
      cases hloop
    | found p1 st1 =>
      rw [hstep] at hloop
      cases hloop
      obtain ⟨ps, hps, hrev⟩ := searchStep_found_spec hinv hstep
      exact ⟨st, ps, hinv, hps, hrev⟩
    | goOn st1 =>
      rw [hstep] at hloop
      obtain ⟨hinv1, _, _⟩ := searchStep_goOn_spec hinv hstep
      exact ih st1 hinv1 hloop

/-- With fuel exceeding the measure, the loop never runs out of fuel. -/
theorem searchLoop_no_outOfFuel {cfg : Config} {start : Point2} {endX endY endKey : Int} :
    ∀ (fuel : Nat) (st : SearchState) {stf : SearchState},
      SearchInv cfg start st → searchMeasure cfg st < fuel →
      searchLoop cfg endX endY endKey fuel st ≠ .outOfFuel stf := by
  intro fuel
  induction fuel with
  | zero =>
    intro st stf _ hm
    omega
  | succ f ih =>
    intro st stf hinv hm hloop
    unfold searchLoop at hloop
    cases hstep : searchStep cfg endX endY endKey st with
    | exhausted st1 =>
      rw [hstep] at hloop
      cases hloop
    | found p1 st1 =>
      rw [hstep] at hloop
      cases hloop
    | goOn st1 =>
      rw [hstep] at hloop
      obtain ⟨hinv1, hmeas, _⟩ := searchStep_goOn_spec hinv hstep
      exact ih st1 hinv1 (by omega) hloop

/-- The scratch state built at the top of a fresh search satisfies the
invariant. -/
theorem initialSearchState_inv {cfg : Config} {start : Point2} (endX endY : Int)
    (hstart : isValidPoint cfg start) :
    SearchInv cfg start (initialSearchState cfg start endX endY) := by
  unfold initialSearchState
  dsimp only
  have hitems : ∀ p : ℚ, ((PriorityQueue.mk ([] : List (PQEntry Int)) (fun a b => a - b)).enqueue
      (keyOf cfg start) p).items = [⟨keyOf cfg start, p⟩] := by
    intro p
    unfold PriorityQueue.enqueue
    dsimp only
    unfold PriorityQueue.heapifyUp PriorityQueue.heapifyUpAux
    simp
  constructor
  · unfold heapKeys
    rw [hitems]
    rw [setAdd_not_mem (by simp)]
    simp
  · rw [setAdd_not_mem (by simp)]
    simp
  · simp
  · intro k hk
    rw [setAdd_not_mem (by simp)] at hk
    simp
  · intro k n hmap
    rcases eq_or_ne k (keyOf cfg start) with rfl | hne
    · rw [mapGet_mapSet_self] at hmap
      cases hmap
      exact ⟨rfl, hstart⟩
    · rw [mapGet_mapSet_ne _ _ _ _ hne] at hmap
      cases hmap
  · intro k hk
    rw [setAdd_not_mem (by simp)] at hk
    rcases hk with hk | hk
    · rcases List.mem_singleton.mp hk with rfl
      exact ⟨_, mapGet_mapSet_self ..⟩
    · cases hk
  · intro k hk
    rw [setAdd_not_mem (by simp)] at hk
    rcases hk with hk | hk
    · rcases List.mem_singleton.mp hk with rfl
      refine ⟨[start], ?_⟩
      have hbase := @ChainTo.base cfg start []
        (mapSet [] (keyOf cfg start)
          ({ getNode start.x start.y with
            h := heuristic start.x start.y endX endY,
            f := heuristic start.x start.y endX endY } : Node))
        (keyOf cfg start) _ (mapGet_mapSet_self ..) rfl rfl rfl hstart
      exact hbase
    · cases hk

/-- The initial measure is exactly the cell count. -/
theorem initialSearchState_measure {cfg : Config} {start : Point2} (endX endY : Int)
    (hstart : isValidPoint cfg start) :
    searchMeasure cfg (initialSearchState cfg start endX endY) < searchFuel cfg := by
  unfold searchMeasure initialSearchState searchFuel
  dsimp only
  have hitems : ∀ p : ℚ, ((PriorityQueue.mk ([] : List (PQEntry Int)) (fun a b => a - b)).enqueue
      (keyOf cfg start) p).items = [⟨keyOf cfg start, p⟩] := by
    intro p
    unfold PriorityQueue.enqueue
    dsimp only
    unfold PriorityQueue.heapifyUp PriorityQueue.heapifyUpAux
    simp
  rw [hitems, setAdd_not_mem (by simp)]
  simp only [List.length_singleton, List.length_nil]
  unfold cellBound
  have hr := keyOf_range hstart
  omega

theorem nodup_getElem?_eq {α : Type} {l : List α} (h : l.Nodup) {i j : Nat} {a : α}
    (hi : l[i]? = some a) (hj : l[j]? = some a) : i = j := by
  by_contra hne
  rcases Nat.lt_or_ge i j with hij | hij
  · obtain ⟨hjl, _⟩ := List.getElem?_eq_some.mp hj
    exact (List.nodup_iff_getElem?_ne_getElem?.mp h i j hij hjl) (hi.trans hj.symm)
  · have hij' : j < i := by omega
    obtain ⟨hil, _⟩ := List.getElem?_eq_some.mp hi
    exact (List.nodup_iff_getElem?_ne_getElem?.mp h j i hij' hil) (hj.trans hi.symm)

/-- Lookup after folding `mapSet` over index/point pairs with
duplicate-free keys: the first (hence only) matching pair wins, else the
initial map answers. -/
theorem foldl_mapSet_get (cfg : Config) :
    ∀ (pairs : List (Nat × Point2)) (m0 : List (Int × Nat)) (k : Int),
      (pairs.map (fun iv => keyOf cfg iv.2)).Nodup →
      mapGet (pairs.foldl (fun m iv => mapSet m (keyOf cfg iv.2) iv.1) m0) k
        = (match pairs.find? (fun iv => keyOf cfg iv.2 == k) with
           | some iv => some iv.1
           | none => mapGet m0 k) := by
  intro pairs
  induction pairs with
  | nil =>
    intro m0 k _
    simp [List.find?]
  | cons iv rest ih =>
    intro m0 k hnd
    simp only [List.map_cons, List.nodup_cons] at hnd
    obtain ⟨hnm, hnd'⟩ := hnd
    rw [List.foldl_cons, ih _ k hnd']
    by_cases hk : keyOf cfg iv.2 = k
    · rw [List.find?_cons_of_pos _ (by simpa using hk)]
      cases hfind : rest.find? (fun jv => keyOf cfg jv.2 == k) with
      | none =>
        rw [hk]
        rw [mapGet_mapSet_self]
      | some jv =>
        exfalso
        have hjk : keyOf cfg jv.2 = k := by simpa using List.find?_some hfind
        have hmem := List.mem_of_find?_eq_some hfind
        apply hnm
        rw [hk, ← hjk]
        exact List.mem_map_of_mem _ hmem
    · rw [List.find?_cons_of_neg _ (by simpa using hk)]
      cases hfind : rest.find? (fun jv => keyOf cfg jv.2 == k) with
      | none =>
        rw [mapGet_mapSet_ne _ _ _ _ (fun e => hk e.symm)]
      | some jv => rfl

/-- With duplicate-free keys, the point-to-index map sends the key of the
entry at `i` to `i`. -/
theorem buildPointToIndex_get {cfg : Config} {path : List Point2}
    (hnd : (path.map (keyOf cfg)).Nodup) {i : Nat} {p : Point2}
    (hp : path[i]? = some p) :
    mapGet (buildPointToIndex cfg path) (keyOf cfg p) = some i := by
  unfold buildPointToIndex
  have hnd' : (path.enum.map (fun iv => keyOf cfg iv.2)).Nodup := by
    have heq : path.enum.map (fun iv => keyOf cfg iv.2) = path.map (keyOf cfg) := by
      calc path.enum.map (fun iv => keyOf cfg iv.2)
          = (path.enum.map Prod.snd).map (keyOf cfg) := by
            rw [List.map_map]
            rfl
        _ = path.map (keyOf cfg) := by rw [List.enum_map_snd]
    rw [heq]
    exact hnd
  rw [foldl_mapSet_get cfg path.enum [] (keyOf cfg p) hnd']
  cases hfind : path.enum.find? (fun iv => keyOf cfg iv.2 == keyOf cfg p) with
  | none =>
    exfalso
    have hsome : (path.enum.find? (fun iv => keyOf cfg iv.2 == keyOf cfg p)).isSome := by
      rw [List.find?_isSome]
      exact ⟨(i, p), List.mem_enum_iff_getElem?.mpr hp, by simp⟩
    rw [hfind] at hsome
    cases hsome
  | some jv =>
    have hjk : keyOf cfg jv.2 = keyOf cfg p := by simpa using List.find?_some hfind
    have hmem := List.mem_enum_iff_getElem?.mp (List.mem_of_find?_eq_some hfind)
    have hmk1 : (path.map (keyOf cfg))[jv.1]? = some (keyOf cfg p) := by
      rw [List.getElem?_map, hmem]
      simp [hjk]
    have hmk2 : (path.map (keyOf cfg))[i]? = some (keyOf cfg p) := by
      rw [List.getElem?_map, hp]
      rfl
    have := nodup_getElem?_eq hnd hmk1 hmk2
    simp [this]

/-- Conversely, every binding of the point-to-index map comes from an
actual entry. -/
theorem buildPointToIndex_lookup {cfg : Config} {path : List Point2}
    (hnd : (path.map (keyOf cfg)).Nodup) {k : Int} {i : Nat}
    (h : mapGet (buildPointToIndex cfg path) k = some i) :
    ∃ p, path[i]? = some p ∧ keyOf cfg p = k := by
  unfold buildPointToIndex at h
  have hnd' : (path.enum.map (fun iv => keyOf cfg iv.2)).Nodup := by
    have heq : path.enum.map (fun iv => keyOf cfg iv.2) = path.map (keyOf cfg) := by
      calc path.enum.map (fun iv => keyOf cfg iv.2)
          = (path.enum.map Prod.snd).map (keyOf cfg) := by
            rw [List.map_map]
            rfl
        _ = path.map (keyOf cfg) := by rw [List.enum_map_snd]
    rw [heq]
    exact hnd
  rw [foldl_mapSet_get cfg path.enum [] k hnd'] at h
  cases hfind : path.enum.find? (fun iv => keyOf cfg iv.2 == k) with
  | none =>
    rw [hfind] at h
    cases h
  | some jv =>
    rw [hfind] at h
    cases h
    have hjk : keyOf cfg jv.2 = k := by simpa using List.find?_some hfind
    have hmem := List.mem_enum_iff_getElem?.mp (List.mem_of_find?_eq_some hfind)
    exact ⟨jv.2, hmem, hjk⟩

/-- A path returned by the search loop from the fresh scratch state is a
well-formed path from `start` to `goal`. -/
theorem searchLoop_path_valid {cfg : Config} {start goal : Point2} {fuel : Nat}
    {p : List Point2} {stf : SearchState}
    (hstart : isValidPoint cfg start) (hgoal : isValidPoint cfg goal)
    (hloop : searchLoop cfg goal.x goal.y (keyOf cfg goal) fuel
      (initialSearchState cfg start goal.x goal.y) = .found p stf) :
    ValidPathSeq cfg p ∧ p.head? = some start ∧ p.getLast? = some goal := by
  obtain ⟨stm, ps, hinvm, hchain, hrev⟩ :=
    searchLoop_found_spec fuel _ (initialSearchState_inv goal.x goal.y hstart) hloop
  subst hrev
  have hnonempty : ps ≠ [] := hchain.nonempty
  refine ⟨⟨?_, ?_, ?_, ?_⟩, ?_, ?_⟩
  · simpa using hnonempty
  · intro q hq
    exact hchain.points_valid q (List.mem_reverse.mp hq)
  · rw [List.chain'_reverse]
    exact hchain.chain_adj.imp (fun a b h => h.symm)
  · rw [List.map_reverse, List.nodup_reverse]
    exact hchain.nodup_keys
  · rw [List.head?_reverse]
    exact hchain.last_start
  · rw [List.getLast?_reverse]
    obtain ⟨n, hm, hh, hk⟩ := hchain.head_pos
    rw [hh]
    have hval : isValidPoint cfg ⟨n.x, n.y⟩ :=
      hchain.points_valid _ (by
        cases ps with
        | nil => exact absurd rfl hnonempty
        | cons a l =>
          simp only [List.head?_cons, Option.some.injEq] at hh
          rw [← hh]
          exact List.mem_cons_self a l)
    have : Point2.mk n.x n.y = goal := keyOf_inj hval hgoal hk
    rw [this]

/-- The packed cache key `sk * maxKey + ek` determines both component
keys when they lie in range. -/
theorem cacheKey_inj {mk sk ek sk' ek' : Int}
    (h1 : 0 ≤ ek) (h2 : ek < mk) (h3 : 0 ≤ ek') (h4 : ek' < mk)
    (heq : sk * mk + ek = sk' * mk + ek') : sk = sk' ∧ ek = ek' := by
  have hs : sk = sk' := by
    rcases lt_trichotomy sk sk' with hlt | he | hgt
    · exfalso
      have hx : (sk + 1) * mk ≤ sk' * mk :=
        mul_le_mul_of_nonneg_right (by omega) (by omega)
      nlinarith
    · exact he
    · exfalso
      have hx : (sk' + 1) * mk ≤ sk * mk :=
        mul_le_mul_of_nonneg_right (by omega) (by omega)
      nlinarith
  subst hs
  exact ⟨rfl, by omega⟩

/-- The subpath scan returns a slice of some stored path at the index
its point-to-index map assigns to the end key. -/
theorem subpathScan_spec {endKey : Int} :
    ∀ {l : List CachedPath} {sliced : List Point2},
      subpathScan endKey l = some sliced →
      ∃ cp ∈ l, ∃ i, mapGet cp.pointToIndex endKey = some i ∧
        sliced = cp.path.take (i + 1) := by
  intro l
  induction l with
  | nil =>
    intro sliced h
    cases h
  | cons cp rest ih =>
    intro sliced h
    unfold subpathScan at h
    cases hidx : mapGet cp.pointToIndex endKey with
    | some i =>
      rw [hidx] at h
      cases h
      exact ⟨cp, List.mem_cons_self cp rest, i, hidx, rfl⟩
    | none =>
      rw [hidx] at h
      obtain ⟨cp', hmem, i, hi, hs⟩ := ih h
      exact ⟨cp', List.mem_cons_of_mem _ hmem, i, hi, hs⟩

/-- The initial heap holds exactly the start entry. -/
theorem initialSearchState_items {cfg : Config} {start : Point2} (endX endY : Int) :
    (initialSearchState cfg start endX endY).openList.items
      = [⟨keyOf cfg start, heuristic start.x start.y endX endY⟩] := by
  unfold initialSearchState PriorityQueue.enqueue
  dsimp only
  unfold PriorityQueue.heapifyUp PriorityQueue.heapifyUpAux
  simp

/-- When the start point already carries the end key, the very first
iteration returns the one-point path without any step-cost call. -/
theorem searchLoop_init_self {cfg : Config} {start : Point2} (endX endY : Int) (f : Nat) :
    ∃ st', searchLoop cfg endX endY (keyOf cfg start) (f + 1)
        (initialSearchState cfg start endX endY) = .found [start] st' ∧
      st'.costCalls = 0 := by
  have hitems := @initialSearchState_items cfg start endX endY
  obtain ⟨q', hdeq, hperm, hcmp⟩ :=
    PriorityQueue.dequeue_of_items_cons
      (initialSearchState cfg start endX endY).openList _ _ hitems
  have hstep : searchStep cfg endX endY (keyOf cfg start)
      (initialSearchState cfg start endX endY)
      = .found [start] { initialSearchState cfg start endX endY with
          openList := q'
          openSet := (initialSearchState cfg start endX endY).openSet.erase
            (keyOf cfg start) } := by
    unfold searchStep
    rw [if_neg (by
      simp only [PriorityQueue.isEmpty, hitems]
      simp)]
    rw [hdeq]
    dsimp only
    rw [if_pos rfl]
    have hrec : reconstructPath (initialSearchState cfg start endX endY).nodeMap
        (keyOf cfg start) = [start] := by
      unfold initialSearchState reconstructPath
      dsimp only
      unfold chainRev
      rw [mapGet_mapSet_self]
      dsimp only
      rfl
    rw [hrec]
  exact ⟨_, by
    unfold searchLoop
    rw [hstep], rfl⟩

/-- Two implicit-argument aliases used below. -/
theorem ne_keys_of_searchLoop_exhausted {cfg : Config} {start goal : Point2}
    {stf : SearchState}
    (hloop : searchLoop cfg goal.x goal.y (keyOf cfg goal) (searchFuel cfg)
      (initialSearchState cfg start goal.x goal.y) = .exhausted stf) :
    keyOf cfg start ≠ keyOf cfg goal := by
  intro heq
  obtain ⟨f, hf⟩ : ∃ f, searchFuel cfg = f + 1 := ⟨(searchFuel cfg) - 1, by
    unfold searchFuel
    omega⟩
  obtain ⟨st', hfound, _⟩ := @searchLoop_init_self cfg start goal.x goal.y f
  rw [hf, ← heq] at hloop
  rw [hloop] at hfound
  cases hfound

/-- `findPath` preserves cache well-formedness. -/
theorem findPath_preserves_WF {cfg : Config} {s : EngineState} (hwf : WFState cfg s)
    (a b : Point2) : WFState cfg (findPath cfg s a b).state := by
  unfold findPath
  dsimp only
  by_cases hval : ¬ isValidPoint cfg a ∨ ¬ isValidPoint cfg b
  · rw [if_pos hval]
    exact hwf
  · rw [if_neg hval]
    push_neg at hval
    obtain ⟨hva, hvb⟩ := hval
    cases hcache : mapGet s.pathCache (keyOf cfg a * maxKey cfg + keyOf cfg b) with
    | some cached => exact hwf
    | none =>
      cases hsub : subpathScan (keyOf cfg b)
          (match mapGet s.subpathCache (keyOf cfg a) with
           | some l => l
           | none => []) with
      | some sliced => exact hwf
      | none =>
        cases hloop : searchLoop cfg b.x b.y (keyOf cfg b) (searchFuel cfg)
            (initialSearchState cfg a b.x b.y) with
        | outOfFuel stf => exact hwf
        | found p stf =>
          obtain ⟨hseq, hhead, hlast⟩ := searchLoop_path_valid hva hvb hloop
          dsimp only
          have hwfcp : WFCachedPath cfg ⟨p, buildPointToIndex cfg p⟩ := ⟨hseq, rfl⟩
          have hka := keyOf_range hva
          have hkb := keyOf_range hvb
          refine ⟨?_, ?_, ?_⟩
          · intro ck cp hck
            by_cases he : ck = keyOf cfg a * maxKey cfg + keyOf cfg b
            · subst he
              rw [mapGet_mapSet_self] at hck
              cases hck
              refine ⟨hwfcp, keyOf cfg a, keyOf cfg b, hka.1, hka.2, hkb.1, hkb.2, rfl, ?_, ?_⟩
              · rw [show (⟨p, buildPointToIndex cfg p⟩ : CachedPath).path = p from rfl, hhead]
                rfl
              · rw [show (⟨p, buildPointToIndex cfg p⟩ : CachedPath).path = p from rfl, hlast]
                rfl
            · rw [mapGet_mapSet_ne _ _ _ _ he] at hck
              exact hwf.exact_entry ck cp hck
          · intro sk hsk0 hsk1
            by_cases he : sk * maxKey cfg + sk = keyOf cfg a * maxKey cfg + keyOf cfg b
            · rw [he, mapGet_mapSet_self]
              intro hcontr
              cases hcontr
            · rw [mapGet_mapSet_ne _ _ _ _ he]
              exact hwf.no_diag_null sk hsk0 hsk1
          · intro sk l hsk cp hcp
            unfold subpathAdd at hsk
            cases hsp : mapGet s.subpathCache (keyOf cfg a) with
            | some l0 =>
              rw [hsp] at hsk
              by_cases he : sk = keyOf cfg a
              · subst he
                rw [mapGet_mapSet_self] at hsk
                cases hsk
                rcases List.mem_append.mp hcp with hm | hm
                · exact hwf.subpath_entry _ l0 hsp cp hm
                · rcases List.mem_singleton.mp hm with rfl
                  refine ⟨hwfcp, ?_⟩
                  rw [show (⟨p, buildPointToIndex cfg p⟩ : CachedPath).path = p from rfl, hhead]
                  rfl
              · rw [mapGet_mapSet_ne _ _ _ _ he] at hsk
                exact hwf.subpath_entry sk l hsk cp hcp
            | none =>
              rw [hsp] at hsk
              by_cases he : sk = keyOf cfg a
              · subst he
                rw [mapGet_mapSet_self] at hsk
                cases hsk
                rcases List.mem_singleton.mp hcp with rfl
                refine ⟨hwfcp, ?_⟩
                rw [show (⟨p, buildPointToIndex cfg p⟩ : CachedPath).path = p from rfl, hhead]
                rfl
              · rw [mapGet_mapSet_ne _ _ _ _ he] at hsk
                exact hwf.subpath_entry sk l hsk cp hcp
        | exhausted stf =>
          dsimp only
          have hne := ne_keys_of_searchLoop_exhausted hloop
          refine ⟨?_, ?_, hwf.subpath_entry⟩
          · intro ck cp hck
            by_cases he : ck = keyOf cfg a * maxKey cfg + keyOf cfg b
            · subst he
              rw [mapGet_mapSet_self] at hck
              cases hck
            · rw [mapGet_mapSet_ne _ _ _ _ he] at hck
              exact hwf.exact_entry ck cp hck
          · intro sk hsk0 hsk1
            by_cases he : sk * maxKey cfg + sk = keyOf cfg a * maxKey cfg + keyOf cfg b
            · exfalso
              have hka := keyOf_range hva
              have hkb := keyOf_range hvb
              obtain ⟨h1, h2⟩ := cacheKey_inj hsk0 hsk1 hkb.1 hkb.2 he
              exact hne (by rw [← h1, ← h2])
            · rw [mapGet_mapSet_ne _ _ _ _ he]
              exact hwf.no_diag_null sk hsk0 hsk1

/-- The empty cache state is well-formed. -/
theorem emptyState_WF (cfg : Config) : WFState cfg emptyState := by
  refine ⟨?_, ?_, ?_⟩
  · intro ck cp hck
    cases hck
  · intro sk _ _ h
    cases h
  · intro sk l hsk
    cases hsk

/-- Every reachable engine state is well-formed. -/
theorem Reachable.wf {cfg : Config} {s : EngineState} (h : Reachable cfg s) :
    WFState cfg s := by
  induction h with
  | init => exact emptyState_WF cfg
  | step s a b _ ih => exact findPath_preserves_WF ih a b

/-- A well-formed path whose two ends carry the same point is a
singleton. -/
theorem ValidPathSeq.eq_singleton {cfg : Config} {p : List Point2} {x : Point2}
    (h : ValidPathSeq cfg p) (hh : p.head? = some x) (hl : p.getLast? = some x) :
    p = [x] := by
  have h0 : p[0]? = some x := by
    cases p with
    | nil => cases hh
    | cons a rest => simpa using hh
  have hlast : p[p.length - 1]? = some x := by
    rw [← List.getLast?_eq_getElem?]
    exact hl
  have hk0 : (p.map (keyOf cfg))[0]? = some (keyOf cfg x) := by
    rw [List.getElem?_map, h0]
    rfl
  have hkl : (p.map (keyOf cfg))[p.length - 1]? = some (keyOf cfg x) := by
    rw [List.getElem?_map, hlast]
    rfl
  have hlen1 : p.length = 1 := by
    have he := nodup_getElem?_eq h.nodup hk0 hkl
    have hpos : 0 < p.length := by
      cases p with
      | nil => cases hh
      | cons a rest => simp
    omega
  obtain ⟨a, ha⟩ := List.length_eq_one.mp hlen1
  subst ha
  simpa using h0

/-- Helper: the endpoints of a cache entry found at the packed key of
two valid points are those two points. -/
theorem exact_entry_endpoints {cfg : Config} {s : EngineState} (hwf : WFState cfg s)
    {a b : Point2} {cp : CachedPath}
    (hva : isValidPoint cfg a) (hvb : isValidPoint cfg b)
    (hget : mapGet s.pathCache (keyOf cfg a * maxKey cfg + keyOf cfg b) = some (some cp)) :
    WFCachedPath cfg cp ∧ cp.path.head? = some a ∧ cp.path.getLast? = some b := by
  obtain ⟨hwfcp, sk, ek, hsk0, hsk1, hek0, hek1, hck, hh, hl⟩ := hwf.exact_entry _ cp hget
  have hka := keyOf_range hva
  have hkb := keyOf_range hvb
  obtain ⟨hs, he⟩ := cacheKey_inj hkb.1 hkb.2 hek0 hek1 hck
  obtain ⟨h0, hh0, hkh0⟩ : ∃ h0, cp.path.head? = some h0 ∧ keyOf cfg h0 = sk := by
    cases hhp : cp.path.head? with
    | none =>
      rw [hhp] at hh
      cases hh
    | some h0 =>
      rw [hhp] at hh
      exact ⟨h0, rfl, by simpa using hh⟩
  obtain ⟨l0, hl0, hkl0⟩ : ∃ l0, cp.path.getLast? = some l0 ∧ keyOf cfg l0 = ek := by
    cases hlp : cp.path.getLast? with
    | none =>
      rw [hlp] at hl
      cases hl
    | some l0 =>
      rw [hlp] at hl
      exact ⟨l0, rfl, by simpa using hl⟩
  have hh0v : isValidPoint cfg h0 :=
    hwfcp.seq.valid h0 (by
      cases hp : cp.path with
      | nil =>
        rw [hp] at hh0
        cases hh0
      | cons c rest =>
        rw [hp] at hh0
        simp only [List.head?_cons, Option.some.injEq] at hh0
        exact hh0 ▸ List.mem_cons_self c rest)
  have hl0v : isValidPoint cfg l0 :=
    hwfcp.seq.valid l0 (by
      rw [List.getLast?_eq_getElem?] at hl0
      obtain ⟨_, hg⟩ := List.getElem?_eq_some.mp hl0
      rw [← hg]
      exact List.getElem_mem _)
  have hha : h0 = a := by
    refine keyOf_inj hh0v hva ?_
    rw [hkh0, ← hs]
  have hlb : l0 = b := by
    refine keyOf_inj hl0v hvb ?_
    rw [hkl0, ← he]
  rw [hha] at hh0
  rw [hlb] at hl0
  exact ⟨hwfcp, hh0, hl0⟩

/-! ### Claim theorems -/

theorem head?_take {α : Type} (l : List α) (n : Nat) (hn : n ≠ 0) :
    (l.take n).head? = l.head? := by
  cases l with
  | nil => simp
  | cons a t =>
    cases n with
    | zero => exact absurd rfl hn
    | succ m => simp

theorem head?_getElem0 {α : Type} {l : List α} {x : α} (h : l.head? = some x) :
    l[0]? = some x := by
  cases l with
  | nil => cases h
  | cons a t => simpa using h

theorem take_getLast {α : Type} {l : List α} {i : Nat} {x : α} (hx : l[i]? = some x) :
    (l.take (i + 1)).getLast? = some x := by
  have hi : i < l.length := (List.getElem?_eq_some.mp hx).1
  rw [List.getLast?_eq_getElem?, List.length_take]
  have hmin : min (i + 1) l.length = i + 1 := by omega
  rw [hmin]
  simp only [Nat.add_sub_cancel]
  rw [List.getElem?_take, if_pos (by omega)]
  exact hx

section RatEval

attribute [local semireducible] Rat.add Rat.sub Rat.mul Rat.ofScientific Rat.inv

/-- Claim C8: a `findPath` call with either endpoint outside the grid
bounds returns not-found immediately, leaves the engine state untouched,
invokes the step-cost function zero times, and never runs the search body
(so no open list, open set, closed set or node map is populated). -/
theorem C8_out_of_bounds {cfg : Config} (s : EngineState) (a b : Point2)
    (h : ¬ isValidPoint cfg a ∨ ¬ isValidPoint cfg b) :
    findPath cfg s a b
      = { result := none, state := s, costCalls := 0, ranSearch := false } := by
  unfold findPath
  rw [if_pos h]

theorem C8_out_of_bounds_witness :
    (¬ isValidPoint lineCfg ⟨-1, 0⟩ ∨ ¬ isValidPoint lineCfg ⟨0, 0⟩) ∧
      findPath lineCfg emptyState ⟨-1, 0⟩ ⟨0, 0⟩
        = { result := none, state := emptyState, costCalls := 0, ranSearch := false } :=
  ⟨Or.inl (by decide),
    C8_out_of_bounds emptyState ⟨-1, 0⟩ ⟨0, 0⟩ (Or.inl (by decide))⟩

/-- Claim C2: from any reachable engine state, when `findPath` returns a
path — from the fresh search, the exact cache or the subpath index — its
first element is the start, its last element is the goal, and consecutive
points are grid-adjacent. -/
theorem C2_endpoints_and_adjacency {cfg : Config} {s : EngineState}
    (hreach : Reachable cfg s) (a b : Point2) {P : List Point2}
    (hP : (findPath cfg s a b).result = some P) :
    P.head? = some a ∧ P.getLast? = some b ∧ List.Chain' Adjacent P := by
  have hwf := Reachable.wf hreach
  unfold findPath at hP
  dsimp only at hP
  by_cases hval : ¬ isValidPoint cfg a ∨ ¬ isValidPoint cfg b
  · rw [if_pos hval] at hP
    cases hP
  · rw [if_neg hval] at hP
    push_neg at hval
    obtain ⟨hva, hvb⟩ := hval
    cases hcache : mapGet s.pathCache (keyOf cfg a * maxKey cfg + keyOf cfg b) with
    | some cached =>
      rw [hcache] at hP
      dsimp only at hP
      cases cached with
      | none => cases hP
      | some cp =>
        have hP' : cp.path = P := by simpa using hP
        obtain ⟨hwfcp, hh, hl⟩ := exact_entry_endpoints hwf hva hvb hcache
        subst hP'
        exact ⟨hh, hl, hwfcp.seq.adj⟩
    | none =>
      rw [hcache] at hP
      dsimp only at hP
      cases hscan : subpathScan (keyOf cfg b)
          (match mapGet s.subpathCache (keyOf cfg a) with
           | some l => l
           | none => []) with
      | some sliced =>
        rw [hscan] at hP
        dsimp only at hP
        cases hP
        obtain ⟨cp, hmem, i, hidx, hsl⟩ := subpathScan_spec hscan
        obtain ⟨hwfcp, hheadk⟩ : WFCachedPath cfg cp ∧
            (cp.path.head?).map (keyOf cfg) = some (keyOf cfg a) := by
          cases hsp : mapGet s.subpathCache (keyOf cfg a) with
          | some l =>
            rw [hsp] at hmem
            exact hwf.subpath_entry _ l hsp cp hmem
          | none =>
            rw [hsp] at hmem
            cases hmem
        rw [hwfcp.pti] at hidx
        obtain ⟨q, hq, hkq⟩ := buildPointToIndex_lookup hwfcp.seq.nodup hidx
        have hqv : isValidPoint cfg q := by
          refine hwfcp.seq.valid q ?_
          obtain ⟨_, hg⟩ := List.getElem?_eq_some.mp hq
          rw [← hg]
          exact List.getElem_mem _
        have hqb : q = b := keyOf_inj hqv hvb hkq
        subst hqb
        subst hsl
        refine ⟨?_, take_getLast hq, hwfcp.seq.adj.take _⟩
        rw [head?_take _ _ (by omega)]
        obtain ⟨h0, hh0, hkh0⟩ : ∃ h0, cp.path.head? = some h0 ∧
            keyOf cfg h0 = keyOf cfg a := by
          cases hhp : cp.path.head? with
          | none =>
            rw [hhp] at hheadk
            cases hheadk
          | some h0 =>
            rw [hhp] at hheadk
            exact ⟨h0, rfl, by simpa using hheadk⟩
        have hh0v : isValidPoint cfg h0 := by
          refine hwfcp.seq.valid h0 ?_
          cases hp : cp.path with
          | nil =>
            rw [hp] at hh0
            cases hh0
          | cons c rest =>
            rw [hp] at hh0
            simp only [List.head?_cons, Option.some.injEq] at hh0
            exact hh0 ▸ List.mem_cons_self c rest
        rw [hh0, keyOf_inj hh0v hva hkh0]
      | none =>
        rw [hscan] at hP
        dsimp only at hP
        cases hloop : searchLoop cfg b.x b.y (keyOf cfg b) (searchFuel cfg)
            (initialSearchState cfg a b.x b.y) with
        | found p stf =>
          rw [hloop] at hP
          dsimp only at hP
          cases hP
          obtain ⟨hseq, hhead, hlast⟩ := searchLoop_path_valid hva hvb hloop
          exact ⟨hhead, hlast, hseq.adj⟩
        | exhausted stf =>
          rw [hloop] at hP
          cases hP
        | outOfFuel stf =>
          rw [hloop] at hP
          cases hP

theorem C2_endpoints_and_adjacency_witness :
    ([⟨0,0⟩, ⟨1,0⟩, ⟨2,0⟩] : List Point2).head? = some ⟨0,0⟩ ∧
      ([⟨0,0⟩, ⟨1,0⟩, ⟨2,0⟩] : List Point2).getLast? = some ⟨2,0⟩ ∧
      List.Chain' Adjacent [⟨0,0⟩, ⟨1,0⟩, ⟨2,0⟩] :=
  C2_endpoints_and_adjacency (@Reachable.init lineCfg) ⟨0,0⟩ ⟨2,0⟩
    (by decide)

/-- Claim C7: for an in-bounds point `p`, from any reachable engine
state, `findPath p p` returns the single-point path `[p]`, whose total
cost is zero, without invoking the step-cost function. -/
theorem C7_self_path {cfg : Config} {s : EngineState} (hreach : Reachable cfg s)
    (p : Point2) (hv : isValidPoint cfg p) :
    (findPath cfg s p p).result = some [p] ∧ (findPath cfg s p p).costCalls = 0 ∧
      pathCost cfg [p] = some 0 := by
  have hwf := Reachable.wf hreach
  have hkp := keyOf_range hv
  suffices h : (findPath cfg s p p).result = some [p] ∧ (findPath cfg s p p).costCalls = 0 by
    exact ⟨h.1, h.2, rfl⟩
  unfold findPath
  dsimp only
  rw [if_neg (by push_neg; exact ⟨hv, hv⟩)]
  cases hcache : mapGet s.pathCache (keyOf cfg p * maxKey cfg + keyOf cfg p) with
  | some cached =>
    dsimp only
    cases cached with
    | none =>
      exact absurd hcache (hwf.no_diag_null (keyOf cfg p) hkp.1 hkp.2)
    | some cp =>
      obtain ⟨hwfcp, hh, hl⟩ := exact_entry_endpoints hwf hv hv hcache
      have hsingle : cp.path = [p] := hwfcp.seq.eq_singleton hh hl
      exact ⟨by simp [hsingle], rfl⟩
  | none =>
    dsimp only
    cases hscan : subpathScan (keyOf cfg p)
        (match mapGet s.subpathCache (keyOf cfg p) with
         | some l => l
         | none => []) with
    | some sliced =>
      dsimp only
      obtain ⟨cp, hmem, i, hidx, hsl⟩ := subpathScan_spec hscan
      obtain ⟨hwfcp, hheadk⟩ : WFCachedPath cfg cp ∧
          (cp.path.head?).map (keyOf cfg) = some (keyOf cfg p) := by
        cases hsp : mapGet s.subpathCache (keyOf cfg p) with
        | some l =>
          rw [hsp] at hmem
          exact hwf.subpath_entry _ l hsp cp hmem
        | none =>
          rw [hsp] at hmem
          cases hmem
      rw [hwfcp.pti] at hidx
      obtain ⟨q, hq, hkq⟩ := buildPointToIndex_lookup hwfcp.seq.nodup hidx
      obtain ⟨h0, hh0, hkh0⟩ : ∃ h0, cp.path.head? = some h0 ∧
          keyOf cfg h0 = keyOf cfg p := by
        cases hhp : cp.path.head? with
        | none =>
          rw [hhp] at hheadk
          cases hheadk
        | some h0 =>
          rw [hhp] at hheadk
          exact ⟨h0, rfl, by simpa using hheadk⟩
      have h00 : cp.path[0]? = some h0 := head?_getElem0 hh0
      have hi0 : i = 0 := by
        refine @nodup_getElem?_eq ℤ (cp.path.map (keyOf cfg)) hwfcp.seq.nodup i 0
          (keyOf cfg p) ?_ ?_
        · rw [List.getElem?_map, hq]
          simp [hkq]
        · rw [List.getElem?_map, h00]
          simp [hkh0]
      subst hi0
      have hh0v : isValidPoint cfg h0 := by
        refine hwfcp.seq.valid h0 ?_
        obtain ⟨_, hg⟩ := List.getElem?_eq_some.mp h00
        rw [← hg]
        exact List.getElem_mem _
      have hh0p : h0 = p := keyOf_inj hh0v hv hkh0
      subst hh0p
      refine ⟨?_, rfl⟩
      rw [hsl]
      cases hpath : cp.path with
      | nil =>
        rw [hpath] at h00
        cases h00
      | cons c rest =>
        rw [hpath] at h00
        simp only [List.getElem?_cons_zero, Option.some.injEq] at h00
        simp [h00]
    | none =>
      dsimp only
      obtain ⟨f, hf⟩ : ∃ f, searchFuel cfg = f + 1 := ⟨(cfg.width * cfg.height).toNat, rfl⟩
      obtain ⟨st', hfound, hcost⟩ := @searchLoop_init_self cfg p p.x p.y f
      rw [hf, hfound]
      exact ⟨rfl, hcost⟩

theorem C7_self_path_witness :
    (findPath lineCfg emptyState ⟨1,0⟩ ⟨1,0⟩).result = some [⟨1,0⟩] ∧
      (findPath lineCfg emptyState ⟨1,0⟩ ⟨1,0⟩).costCalls = 0 ∧
      pathCost lineCfg [⟨1,0⟩] = some 0 :=
  C7_self_path (@Reachable.init lineCfg) ⟨1,0⟩ (by decide)

/-- Claim C4: repeating a `findPath` call returns a structurally equal
result, and the repeat never invokes the step-cost function — it is
served entirely from the caches. -/
theorem C4_idempotent (cfg : Config) (s : EngineState) (a b : Point2) :
    (findPath cfg (findPath cfg s a b).state a b).result = (findPath cfg s a b).result ∧
      (findPath cfg (findPath cfg s a b).state a b).costCalls = 0 := by
  by_cases hval : ¬ isValidPoint cfg a ∨ ¬ isValidPoint cfg b
  · have h1 : findPath cfg s a b
        = { result := none, state := s, costCalls := 0, ranSearch := false } := by
      unfold findPath
      rw [if_pos hval]
    rw [h1]
    dsimp only
    rw [h1]
    exact ⟨rfl, rfl⟩
  · push_neg at hval
    obtain ⟨hva, hvb⟩ := hval
    have hnval : ¬ (¬ isValidPoint cfg a ∨ ¬ isValidPoint cfg b) := by
      push_neg
      exact ⟨hva, hvb⟩
    cases hcache : mapGet s.pathCache (keyOf cfg a * maxKey cfg + keyOf cfg b) with
    | some cached =>
      have h1 : findPath cfg s a b
          = { result := cached.map CachedPath.path, state := s, costCalls := 0,
              ranSearch := false } := by
        unfold findPath
        dsimp only
        rw [if_neg hnval, hcache]
      rw [h1]
      dsimp only
      rw [h1]
      exact ⟨rfl, rfl⟩
    | none =>
      cases hscan : subpathScan (keyOf cfg b)
          (match mapGet s.subpathCache (keyOf cfg a) with
           | some l => l
           | none => []) with
      | some sliced =>
        have h1 : findPath cfg s a b
            = { result := some sliced, state := s, costCalls := 0, ranSearch := false } := by
          unfold findPath
          dsimp only
          rw [if_neg hnval, hcache]
          dsimp only
          rw [hscan]
        rw [h1]
        dsimp only
        rw [h1]
        exact ⟨rfl, rfl⟩
      | none =>
        cases hloop : searchLoop cfg b.x b.y (keyOf cfg b) (searchFuel cfg)
            (initialSearchState cfg a b.x b.y) with
        | outOfFuel stf =>
          exact absurd hloop (searchLoop_no_outOfFuel (searchFuel cfg) _
            (initialSearchState_inv b.x b.y hva) (initialSearchState_measure b.x b.y hva))
        | found p stf =>
          have h1 : findPath cfg s a b
              = { result := some p
                  state :=
                    { pathCache := mapSet s.pathCache
                        (keyOf cfg a * maxKey cfg + keyOf cfg b)
                        (some ⟨p, buildPointToIndex cfg p⟩)
                      subpathCache := subpathAdd s.subpathCache (keyOf cfg a)
                        ⟨p, buildPointToIndex cfg p⟩ }
                  costCalls := stf.costCalls
                  ranSearch := true } := by
            unfold findPath
            dsimp only
            rw [if_neg hnval, hcache]
            dsimp only
            rw [hscan]
            dsimp only
            rw [hloop]
          rw [h1]
          dsimp only
          unfold findPath
          dsimp only
          rw [if_neg hnval, mapGet_mapSet_self]
          exact ⟨rfl, rfl⟩
        | exhausted stf =>
          have h1 : findPath cfg s a b
              = { result := none
                  state :=
                    { s with
                      pathCache :=
                        mapSet s.pathCache (keyOf cfg a * maxKey cfg + keyOf cfg b) none }
                  costCalls := stf.costCalls
                  ranSearch := true } := by
            unfold findPath
            dsimp only
            rw [if_neg hnval, hcache]
            dsimp only
            rw [hscan]
            dsimp only
            rw [hloop]
          rw [h1]
          dsimp only
          unfold findPath
          dsimp only
          rw [if_neg hnval, mapGet_mapSet_self]
          exact ⟨rfl, rfl⟩

/-- Claim C6 (corrected): when the search exhausts the open set without
reaching the goal, `findPath` returns not-found and records the negative
result under the (start, end) key of the exact path cache only; the
subpath index is left unchanged, contrary to the spec sentence that both
caches are populated with negative results. -/
theorem C6_negative_result_exact_cache_only {cfg : Config} {s : EngineState}
    {a b : Point2} {stf : SearchState}
    (hva : isValidPoint cfg a) (hvb : isValidPoint cfg b)
    (hcache : mapGet s.pathCache (keyOf cfg a * maxKey cfg + keyOf cfg b) = none)
    (hscan : subpathScan (keyOf cfg b)
      (match mapGet s.subpathCache (keyOf cfg a) with
       | some l => l
       | none => []) = none)
    (hloop : searchLoop cfg b.x b.y (keyOf cfg b) (searchFuel cfg)
      (initialSearchState cfg a b.x b.y) = .exhausted stf) :
    (findPath cfg s a b).result = none ∧
      (findPath cfg s a b).state.pathCache
        = mapSet s.pathCache (keyOf cfg a * maxKey cfg + keyOf cfg b) none ∧
      (findPath cfg s a b).state.subpathCache = s.subpathCache := by
  have hnval : ¬ (¬ isValidPoint cfg a ∨ ¬ isValidPoint cfg b) := by
    push_neg
    exact ⟨hva, hvb⟩
  have h1 : findPath cfg s a b
      = { result := none
          state :=
            { s with
              pathCache :=
                mapSet s.pathCache (keyOf cfg a * maxKey cfg + keyOf cfg b) none }
          costCalls := stf.costCalls
          ranSearch := true } := by
    unfold findPath
    dsimp only
    rw [if_neg hnval, hcache]
    dsimp only
    rw [hscan]
    dsimp only
    rw [hloop]
  rw [h1]
  exact ⟨rfl, rfl, rfl⟩

theorem C6_negative_result_witness :
    (findPath blockedCfg emptyState ⟨0,0⟩ ⟨1,0⟩).result = none ∧
      (findPath blockedCfg emptyState ⟨0,0⟩ ⟨1,0⟩).state.pathCache
        = mapSet emptyState.pathCache
            (keyOf blockedCfg ⟨0,0⟩ * maxKey blockedCfg + keyOf blockedCfg ⟨1,0⟩) none ∧
      (findPath blockedCfg emptyState ⟨0,0⟩ ⟨1,0⟩).state.subpathCache
        = emptyState.subpathCache := by
  obtain ⟨stf, hloop⟩ : ∃ stf, searchLoop blockedCfg (1:Int) 0 (keyOf blockedCfg ⟨1,0⟩)
      (searchFuel blockedCfg) (initialSearchState blockedCfg ⟨0,0⟩ 1 0)
      = .exhausted stf := ⟨_, rfl⟩
  exact C6_negative_result_exact_cache_only (by decide) (by decide) rfl rfl hloop

/-- Claim C6 counterexample: on the fully blocked 2×1 grid the search
exhausts, `findPath` returns not-found, the exact cache receives the
negative entry, but the subpath index stays empty — the spec's "populate
both caches with the result, including negative results" does not
happen. -/
theorem C6_subpath_cache_not_populated :
    (findPath blockedCfg emptyState ⟨0,0⟩ ⟨1,0⟩).result = none ∧
      (findPath blockedCfg emptyState ⟨0,0⟩ ⟨1,0⟩).state.pathCache = [(1, none)] ∧
      (findPath blockedCfg emptyState ⟨0,0⟩ ⟨1,0⟩).state.subpathCache = [] := by
  refine ⟨?_, ?_, ?_⟩ <;> rfl

/-- Claim C5 (corrected): when a strictly better tentative cumulative
cost is found for a neighbor that is already in the open set (and not
closed), the engine rewrites the node's parent, `g`, `h` and `f` fields
in place and does not enqueue it again: the open list and the
open-membership set are unchanged, so no duplicate heap entry is
produced (the spec claims a duplicate entry is pushed instead). -/
theorem C5_no_reenqueue_on_improvement {cfg : Config} {endX endY currentKey : Int}
    {cur : Node} {st : SearchState} {npos : Point2} {nb : Node} {base : ℚ}
    (hnc : encodeKey cfg npos.x npos.y ∉ st.closedSet)
    (hreg : mapGet st.nodeMap (encodeKey cfg npos.x npos.y) = some nb)
    (hcost : cfg.getStepCost ⟨cur.x, cur.y⟩ npos = some base)
    (hopen : encodeKey cfg npos.x npos.y ∈ st.openSet)
    (himp : cur.g + base * (if isDiagonalMove ⟨cur.x, cur.y⟩ npos then DIAGONAL_COST else 1)
      < nb.g) :
    processNeighbor cfg endX endY currentKey cur st npos
      = { st with
          costCalls := st.costCalls + 1
          nodeMap := mapSet st.nodeMap (encodeKey cfg npos.x npos.y)
            { nb with
              parent := some currentKey
              g := cur.g + base *
                (if isDiagonalMove ⟨cur.x, cur.y⟩ npos then DIAGONAL_COST else 1)
              h := heuristic npos.x npos.y endX endY
              f := cur.g + base *
                  (if isDiagonalMove ⟨cur.x, cur.y⟩ npos then DIAGONAL_COST else 1)
                + heuristic npos.x npos.y endX endY } } := by
  unfold processNeighbor
  dsimp only
  rw [if_neg hnc]
  unfold getOrCreateNode
  rw [hreg]
  dsimp only
  rw [hcost]
  dsimp only
  rw [if_neg (by
    intro hand
    exact absurd hand.2 (by simpa using himp))]
  rw [if_pos hopen]
  unfold writeNeighbor
  rfl

theorem C5_no_reenqueue_witness :
    processNeighbor c1cfg 2 0 4
      { x := 1, y := 1, g := 11, h := 0, f := 11, parent := some 3 }
      { openList := PriorityQueue.mk [⟨1, 101⟩] (fun a b => a - b)
        openSet := [1]
        closedSet := [0]
        nodeMap := [(1, { x := 1, y := 0, g := 100, h := 1, f := 101, parent := some 0 })]
        costCalls := 5 }
      ⟨1, 0⟩
      = { openList := PriorityQueue.mk [⟨1, 101⟩] (fun a b => a - b)
          openSet := [1]
          closedSet := [0]
          nodeMap := [(1, { x := 1, y := 0, g := 12, h := 1, f := 13, parent := some 4 })]
          costCalls := 6 } := by
  have h := @C5_no_reenqueue_on_improvement c1cfg 2 0 4
    { x := 1, y := 1, g := 11, h := 0, f := 11, parent := some 3 }
    { openList := PriorityQueue.mk [⟨1, 101⟩] (fun a b => a - b)
      openSet := [1]
      closedSet := [0]
      nodeMap := [(1, { x := 1, y := 0, g := 100, h := 1, f := 101, parent := some 0 })]
      costCalls := 5 }
    ⟨1, 0⟩
    { x := 1, y := 0, g := 100, h := 1, f := 101, parent := some 0 }
    1 (by decide) rfl (by decide) (by decide) (by decide)
  rw [h]
  rfl

/-- Claim C5 counterexample: on the c1 grid, between iterations 2 and 3
the node at key 1 (already in the open set) has its cumulative cost
improved from 100 to 12, yet the heap still holds exactly one entry for
key 1 and its priority stays at the stale value 101 — no duplicate heap
entry is produced. -/
theorem C5_duplicate_entry_counterexample :
    (c1After 2).map (fun st =>
        ((st.openList.items.map PQEntry.item).count 1,
          decide ((1 : Int) ∈ st.openSet),
          (mapGet st.nodeMap 1).map Node.g,
          (st.openList.items.filter (fun e => e.item == 1)).map PQEntry.priority))
      = some (1, true, some 100, [101]) ∧
    (c1After 3).map (fun st =>
        ((st.openList.items.map PQEntry.item).count 1,
          decide ((1 : Int) ∈ st.openSet),
          (mapGet st.nodeMap 1).map Node.g,
          (st.openList.items.filter (fun e => e.item == 1)).map PQEntry.priority))
      = some (1, true, some 12, [101]) := by
  exact ⟨by decide, by decide⟩

/-- Claim C3 (corrected): the subpath law holds from a fresh (or just
cleared) engine: if the first call `findPath A C` from empty caches
returns P and B appears in P, the next call `findPath A B` returns
exactly the prefix of P up to and including B's index. With other
entries already cached under the same start key the law fails (see the
counterexample): the subpath scan serves the first cached path containing
B in insertion order, which need not be P. -/
theorem C3_subpath_prefix_law {cfg : Config} {A C B : Point2} {P : List Point2}
    (h1 : (findPath cfg emptyState A C).result = some P) (hB : B ∈ P) :
    (findPath cfg (findPath cfg emptyState A C).state A B).result
      = some (P.take (P.indexOf B + 1)) := by
  by_cases hval : ¬ isValidPoint cfg A ∨ ¬ isValidPoint cfg C
  · rw [show findPath cfg emptyState A C
        = { result := none, state := emptyState, costCalls := 0, ranSearch := false } from by
      unfold findPath
      rw [if_pos hval]] at h1
    cases h1
  · push_neg at hval
    obtain ⟨hvA, hvC⟩ := hval
    have hnval : ¬ (¬ isValidPoint cfg A ∨ ¬ isValidPoint cfg C) := by
      push_neg
      exact ⟨hvA, hvC⟩
    have hcache : mapGet emptyState.pathCache
        (keyOf cfg A * maxKey cfg + keyOf cfg C) = none := rfl
    have hscan0 : subpathScan (keyOf cfg C)
        (match mapGet emptyState.subpathCache (keyOf cfg A) with
         | some l => l
         | none => []) = none := rfl
    cases hloop : searchLoop cfg C.x C.y (keyOf cfg C) (searchFuel cfg)
        (initialSearchState cfg A C.x C.y) with
    | outOfFuel stf =>
      rw [show findPath cfg emptyState A C
          = { result := none, state := emptyState, costCalls := stf.costCalls,
              ranSearch := true } from by
        unfold findPath
        dsimp only
        rw [if_neg hnval, hcache]
        dsimp only
        rw [hscan0]
        dsimp only
        rw [hloop]] at h1
      cases h1
    | exhausted stf =>
      rw [show findPath cfg emptyState A C
          = { result := none
              state :=
                { emptyState with
                  pathCache :=
                    mapSet emptyState.pathCache
                      (keyOf cfg A * maxKey cfg + keyOf cfg C) none }
              costCalls := stf.costCalls
              ranSearch := true } from by
        unfold findPath
        dsimp only
        rw [if_neg hnval, hcache]
        dsimp only
        rw [hscan0]
        dsimp only
        rw [hloop]] at h1
      cases h1
    | found p stf =>
      have hcall : findPath cfg emptyState A C
          = { result := some p
              state :=
                { pathCache :=
                    mapSet emptyState.pathCache
                      (keyOf cfg A * maxKey cfg + keyOf cfg C)
                      (some ⟨p, buildPointToIndex cfg p⟩)
                  subpathCache :=
                    subpathAdd emptyState.subpathCache (keyOf cfg A)
                      ⟨p, buildPointToIndex cfg p⟩ }
              costCalls := stf.costCalls
              ranSearch := true } := by
        unfold findPath
        dsimp only
        rw [if_neg hnval, hcache]
        dsimp only
        rw [hscan0]
        dsimp only
        rw [hloop]
      rw [hcall] at h1
      obtain rfl : p = P := by simpa using h1
      obtain ⟨hseq, hhead, hlast⟩ := searchLoop_path_valid hvA hvC hloop
      have hvB : isValidPoint cfg B := hseq.valid B hB
      have hi : p.indexOf B < p.length := List.indexOf_lt_length.mpr hB
      have hiP : p[p.indexOf B]? = some B := by
        rw [List.getElem?_eq_getElem hi, List.getElem_indexOf]
      rw [hcall]
      dsimp only
      unfold findPath
      dsimp only
      rw [if_neg (by push_neg; exact ⟨hvA, hvB⟩)]
      by_cases hkey : keyOf cfg B = keyOf cfg C
      · have hBC : B = C := keyOf_inj hvB hvC hkey
        subst hBC
        rw [mapGet_mapSet_self]
        dsimp only
        have hnodP : p.Nodup := hseq.nodup.of_map
        have hlastP : p[p.length - 1]? = some B := by
          rw [← List.getLast?_eq_getElem?]
          exact hlast
        have hidxlast : p.indexOf B = p.length - 1 := nodup_getElem?_eq hnodP hiP hlastP
        have hpos : 0 < p.length := by
          cases hp : p with
          | nil =>
            rw [hp] at hB
            cases hB
          | cons c rest => simp [hp]
        rw [hidxlast, show p.length - 1 + 1 = p.length from by omega, List.take_length]
        rfl
      · have hkAC : keyOf cfg A * maxKey cfg + keyOf cfg B
            ≠ keyOf cfg A * maxKey cfg + keyOf cfg C := by
          intro he
          exact hkey (by omega)
        rw [mapGet_mapSet_ne _ _ _ _ hkAC]
        rw [show mapGet emptyState.pathCache
            (keyOf cfg A * maxKey cfg + keyOf cfg B) = none from rfl]
        dsimp only
        have hadd : subpathAdd emptyState.subpathCache (keyOf cfg A)
            (⟨p, buildPointToIndex cfg p⟩ : CachedPath)
            = mapSet [] (keyOf cfg A) [⟨p, buildPointToIndex cfg p⟩] := rfl
        rw [hadd, mapGet_mapSet_self]
        dsimp only
        have hpti : mapGet (buildPointToIndex cfg p) (keyOf cfg B)
            = some (p.indexOf B) := buildPointToIndex_get hseq.nodup hiP
        rw [show subpathScan (keyOf cfg B)
            [(⟨p, buildPointToIndex cfg p⟩ : CachedPath)]
            = some (p.take (p.indexOf B + 1)) from by
          unfold subpathScan
          rw [show (⟨p, buildPointToIndex cfg p⟩ : CachedPath).pointToIndex
              = buildPointToIndex cfg p from rfl, hpti]]

theorem C3_subpath_prefix_law_witness :
    (findPath u4 (findPath u4 emptyState ⟨0,0⟩ ⟨2,2⟩).state ⟨0,0⟩ ⟨1,1⟩).result
      = some (([⟨0,0⟩, ⟨0,1⟩, ⟨1,1⟩, ⟨2,1⟩, ⟨2,2⟩] : List Point2).take
          (([⟨0,0⟩, ⟨0,1⟩, ⟨1,1⟩, ⟨2,1⟩, ⟨2,2⟩] : List Point2).indexOf ⟨1,1⟩ + 1)) :=
  C3_subpath_prefix_law (by decide) (by decide)

/-- Claim C3 counterexample: on the uniform 4×4 grid, after
`findPath (0,0) (2,1)` and `findPath (0,0) (2,2)` return P1 and P, the
point B = (2,1) appears in P at index 3, yet `findPath (0,0) (2,1)`
returns the cached P1, which is not P's prefix of length 4 — so the
subpath law does not hold at every reachable engine state. -/
theorem C3_subpath_law_counterexample :
    (findPath u4 emptyState ⟨0,0⟩ ⟨2,1⟩).result
      = some [⟨0,0⟩, ⟨1,0⟩, ⟨2,0⟩, ⟨2,1⟩] ∧
    (findPath u4 (findPath u4 emptyState ⟨0,0⟩ ⟨2,1⟩).state ⟨0,0⟩ ⟨2,2⟩).result
      = some [⟨0,0⟩, ⟨0,1⟩, ⟨1,1⟩, ⟨2,1⟩, ⟨2,2⟩] ∧
    (findPath u4 (findPath u4 (findPath u4 emptyState ⟨0,0⟩ ⟨2,1⟩).state
        ⟨0,0⟩ ⟨2,2⟩).state ⟨0,0⟩ ⟨2,1⟩).result
      = some [⟨0,0⟩, ⟨1,0⟩, ⟨2,0⟩, ⟨2,1⟩] ∧
    (⟨2,1⟩ : Point2) ∈ ([⟨0,0⟩, ⟨0,1⟩, ⟨1,1⟩, ⟨2,1⟩, ⟨2,2⟩] : List Point2) ∧
    ([⟨0,0⟩, ⟨0,1⟩, ⟨1,1⟩, ⟨2,1⟩, ⟨2,2⟩] : List Point2).indexOf ⟨2,1⟩ = 3 ∧
    ([⟨0,0⟩, ⟨1,0⟩, ⟨2,0⟩, ⟨2,1⟩] : List Point2)
      ≠ ([⟨0,0⟩, ⟨0,1⟩, ⟨1,1⟩, ⟨2,1⟩, ⟨2,2⟩] : List Point2).take 4 :=
  ⟨by decide, by decide, by decide, by decide, by decide, by decide⟩

/-- Claim C1 (code bug): on the `c1cfg` grid, `findPath (0,0) (2,0)`
returns the path through (2,1) of total cost 36, while the feasible path
through (1,0) costs 13 — the returned path's total cost is not minimal.
The engine updates an already-open neighbor's fields without re-enqueuing
or repositioning it, so the improved cost never propagates (the source
comment at a-star.ts lines 272-274 asserts the search still finds the
optimal path). -/
theorem C1_returned_path_not_minimal :
    (findPath c1cfg emptyState ⟨0,0⟩ ⟨2,0⟩).result
      = some [⟨0,0⟩, ⟨0,1⟩, ⟨1,1⟩, ⟨2,1⟩, ⟨2,0⟩] ∧
    pathCost c1cfg [⟨0,0⟩, ⟨0,1⟩, ⟨1,1⟩, ⟨2,1⟩, ⟨2,0⟩] = some 36 ∧
    IsFeasiblePath c1cfg ⟨0,0⟩ ⟨2,0⟩ [⟨0,0⟩, ⟨0,1⟩, ⟨1,1⟩, ⟨1,0⟩, ⟨2,0⟩] ∧
    pathCost c1cfg [⟨0,0⟩, ⟨0,1⟩, ⟨1,1⟩, ⟨1,0⟩, ⟨2,0⟩] = some 13 := by
  refine ⟨by decide, by decide, ?_, by decide⟩
  refine ⟨rfl, rfl, by decide, ?_⟩
  simp only [List.chain'_cons, List.chain'_singleton, and_true]
  exact ⟨⟨by decide, by decide⟩, ⟨by decide, by decide⟩, ⟨by decide, by decide⟩,
    by decide, by decide⟩

end RatEval

/-- The dequeued entry names an entry of the heap array. -/
theorem dequeue_fst_mem {α : Type} (q : PriorityQueue α) {x : α}
    (h : (q.dequeue).1 = some x) : ∃ e ∈ q.items, e.item = x := by
  cases hitems : q.items with
  | nil =>
    rw [PriorityQueue.dequeue_of_items_nil q hitems] at h
    cases h
  | cons e tail =>
    obtain ⟨q', hdeq, _, _⟩ := PriorityQueue.dequeue_of_items_cons q e tail hitems
    rw [hdeq] at h
    refine ⟨e, ?_, by simpa using h⟩
    exact List.mem_cons_self e tail

/-- Under the search invariant the dequeue trace never repeats a key and
stays clear of the closed set. -/
theorem dequeueTrace_spec {cfg : Config} {start : Point2} {endX endY endKey : Int} :
    ∀ (fuel : Nat) (st : SearchState), SearchInv cfg start st →
      (dequeueTrace cfg endX endY endKey fuel st).Nodup ∧
        ∀ k ∈ dequeueTrace cfg endX endY endKey fuel st, k ∉ st.closedSet := by
  intro fuel
  induction fuel with
  | zero =>
    intro st _
    exact ⟨List.nodup_nil, by intro k hk; cases hk⟩
  | succ f ih =>
    intro st hinv
    unfold dequeueTrace
    cases hdq : (st.openList.dequeue).1 with
    | none =>
      exact ⟨List.nodup_nil, by intro k hk; cases hk⟩
    | some ck =>
      obtain ⟨e, heme, heq⟩ := dequeue_fst_mem _ hdq
      have hckopen : ck ∈ st.openSet := by
        rw [← heq]
        exact hinv.heap_perm.mem_iff.mp (List.mem_map_of_mem PQEntry.item heme)
      have hckcl : ck ∉ st.closedSet := hinv.disj _ hckopen
      cases hstep : searchStep cfg endX endY endKey st with
      | goOn st' =>
        obtain ⟨hinv', _, ck', _, _, _, hclosed', hdq'⟩ := searchStep_goOn_spec hinv hstep
        have hck' : ck' = ck := by
          rw [hdq] at hdq'
          exact (Option.some.inj hdq').symm
        subst hck'
        obtain ⟨hnd', hcl'⟩ := ih st' hinv'
        refine ⟨List.nodup_cons.mpr ⟨?_, hnd'⟩, ?_⟩
        · intro hmem
          exact hcl' ck' hmem (by rw [hclosed']; exact mem_setAdd.mpr (Or.inl rfl))
        · intro k hk
          rcases List.mem_cons.mp hk with rfl | hk
          · exact hckcl
          · intro hkc
            exact hcl' k hk (by rw [hclosed']; exact mem_setAdd.mpr (Or.inr hkc))
      | found p st' =>
        exact ⟨List.nodup_singleton ck, by
          intro k hk
          rcases List.mem_singleton.mp hk with rfl
          exact hckcl⟩
      | exhausted st' =>
        exact ⟨List.nodup_singleton ck, by
          intro k hk
          rcases List.mem_singleton.mp hk with rfl
          exact hckcl⟩

/-- The invariant carries to the state of a truncated (out-of-fuel)
run. -/
theorem searchLoop_outOfFuel_inv {cfg : Config} {start : Point2} {endX endY endKey : Int} :
    ∀ (fuel : Nat) (st : SearchState) {stf : SearchState}, SearchInv cfg start st →
      searchLoop cfg endX endY endKey fuel st = .outOfFuel stf →
      SearchInv cfg start stf := by
  intro fuel
  induction fuel with
  | zero =>
    intro st stf hinv hloop
    unfold searchLoop at hloop
    cases hloop
    exact hinv
  | succ f ih =>
    intro st stf hinv hloop
    unfold searchLoop at hloop
    cases hstep : searchStep cfg endX endY endKey st with
    | exhausted st' =>
      rw [hstep] at hloop
      cases hloop
    | found p st' =>
      rw [hstep] at hloop
      cases hloop
    | goOn st' =>
      rw [hstep] at hloop
      exact ih st' ((searchStep_goOn_spec hinv hstep).1) hloop

/-- Claim C10: throughout a single search from an in-bounds start, the
open list never holds two entries for the same cell key: at every loop
entry (observed through arbitrarily truncated runs) the keys in the heap
are a permutation of the duplicate-free open-membership set and are
themselves duplicate-free, and the cell keys dequeued and expanded over
the whole run are pairwise distinct — each cell is expanded at most
once. -/
theorem C10_open_list_no_duplicates {cfg : Config} (start goal : Point2)
    (hs : isValidPoint cfg start) (n : Nat) :
    (dequeueTrace cfg goal.x goal.y (keyOf cfg goal) n
      (initialSearchState cfg start goal.x goal.y)).Nodup ∧
    ∀ stf, searchLoop cfg goal.x goal.y (keyOf cfg goal) n
        (initialSearchState cfg start goal.x goal.y) = .outOfFuel stf →
      (heapKeys stf.openList).Perm stf.openSet ∧ stf.openSet.Nodup ∧
        (heapKeys stf.openList).Nodup := by
  have hinv0 := initialSearchState_inv goal.x goal.y hs
  constructor
  · exact (dequeueTrace_spec n _ hinv0).1
  · intro stf hloop
    have hinv := searchLoop_outOfFuel_inv n _ hinv0 hloop
    exact ⟨hinv.heap_perm, hinv.open_nodup, (hinv.heap_perm.nodup_iff).mpr hinv.open_nodup⟩

theorem C10_open_list_no_duplicates_witness :
    (dequeueTrace lineCfg 2 0 (keyOf lineCfg ⟨2,0⟩) 5
      (initialSearchState lineCfg ⟨0,0⟩ 2 0)).Nodup ∧
    ∀ stf, searchLoop lineCfg 2 0 (keyOf lineCfg ⟨2,0⟩) 5
        (initialSearchState lineCfg ⟨0,0⟩ 2 0) = .outOfFuel stf →
      (heapKeys stf.openList).Perm stf.openSet ∧ stf.openSet.Nodup ∧
        (heapKeys stf.openList).Nodup :=
  C10_open_list_no_duplicates ⟨0,0⟩ ⟨2,0⟩ (by decide) 5

end AStar

namespace PriorityQueue

theorem CompareLaws.asymm {c : ℚ → ℚ → ℚ} (h : CompareLaws c) {x y : ℚ}
    (hxy : c x y < 0) : ¬ c y x < 0 :=
  fun hyx => h.irrefl x (h.lt_trans x y x hxy hyx)

theorem getElem?_set_self {α : Type} (l : List α) (i : Nat) (a : α) (h : i < l.length) :
    (l.set i a)[i]? = some a := by
  rw [List.getElem?_set_self']
  rw [List.getElem?_eq_getElem h]
  rfl

/-- Index-wise description of `swapAt`. -/
theorem swapAt_getElem? {α : Type} (l : List (PQEntry α)) {i j : Nat} (k : Nat)
    (hi : i < l.length) (hj : j < l.length) :
    (swapAt l i j)[k]? = if k = j then l[i]? else if k = i then l[j]? else l[k]? := by
  unfold swapAt
  rw [List.getElem?_eq_getElem hi, List.getElem?_eq_getElem hj]
  dsimp only
  by_cases hkj : k = j
  · rw [if_pos hkj]
    subst hkj
    rw [getElem?_set_self _ _ _ (by simpa using hj)]
  · rw [if_neg hkj, List.getElem?_set_ne (fun h => hkj h.symm)]
    by_cases hki : k = i
    · rw [if_pos hki]
      subst hki
      rw [getElem?_set_self _ _ _ hi]
    · rw [if_neg hki, List.getElem?_set_ne (fun h => hki h.symm)]

/-- In a heap, the root compares no greater than every entry. -/
theorem heapProp_root_min {α : Type} {c : ℚ → ℚ → ℚ} (hc : CompareLaws c)
    {l : List (PQEntry α)} (hh : HeapProp c l) {r : PQEntry α} (hr : l[0]? = some r) :
    ∀ (i : Nat) (e : PQEntry α), l[i]? = some e → ¬ c e.priority r.priority < 0 := by
  have key : ∀ (n i : Nat), i < n → ∀ (e : PQEntry α), l[i]? = some e →
      ¬ c e.priority r.priority < 0 := by
    intro n
    induction n with
    | zero =>
      intro i hi
      omega
    | succ n ih =>
      intro i hi e he
      cases i with
      | zero =>
        rw [hr] at he
        cases he
        exact hc.irrefl _
      | succ m =>
        have hlen : m + 1 < l.length := (List.getElem?_eq_some.mp he).1
        have hplen : (m + 1 - 1) / 2 < l.length := by omega
        obtain ⟨pe, hpe⟩ : ∃ pe, l[(m + 1 - 1) / 2]? = some pe :=
          ⟨_, List.getElem?_eq_getElem hplen⟩
        exact hc.not_lt_trans _ _ _ (hh (m + 1) e pe (by omega) he hpe)
          (ih ((m + 1 - 1) / 2) (by omega) pe hpe)
  exact fun i e he => key (i + 1) i (by omega) e he

theorem heapifyUp_heapProp {α : Type} {c : ℚ → ℚ → ℚ} (hc : CompareLaws c) :
    ∀ (n i : Nat), i < n → ∀ (l : List (PQEntry α)), UpAdmissible c l i →
      HeapProp c (heapifyUp c l i) := by
  intro n
  induction n with
  | zero =>
    intro i hi
    omega
  | succ n ih =>
    intro i hi l hup
    rw [heapifyUp_eq]
    by_cases h0 : i = 0
    · rw [if_pos h0]
      subst h0
      intro j e pe hj hje hpe
      exact hup.1 j e pe hj (by omega) hje hpe
    · rw [if_neg h0]
      cases hci : l[i]? with
      | none =>
        intro j e pe hj hje hpe
        by_cases hji : j = i
        · rw [hji, hci] at hje
          cases hje
        · exact hup.1 j e pe hj hji hje hpe
      | some ci =>
        cases hpi : l[(i - 1) / 2]? with
        | none =>
          exfalso
          have hilen : i < l.length := (List.getElem?_eq_some.mp hci).1
          rw [List.getElem?_eq_getElem (show (i - 1) / 2 < l.length from by omega)] at hpi
          cases hpi
        | some pi =>
          dsimp only
          by_cases hcmp : c ci.priority pi.priority < 0
          · rw [if_pos hcmp]
            have hilen : i < l.length := (List.getElem?_eq_some.mp hci).1
            have hplen : (i - 1) / 2 < l.length := by omega
            refine ih ((i - 1) / 2) (by omega) _ ⟨?_, ?_⟩
            · -- heap everywhere except at the new hole (i-1)/2
              intro j e pe hj hjp hje hpe
              rw [swapAt_getElem? l j hilen hplen] at hje
              rw [swapAt_getElem? l ((j - 1) / 2) hilen hplen] at hpe
              by_cases hji : j = i
              · -- the swapped-down parent against the moved-up child
                rw [if_neg (by omega), if_pos hji] at hje
                rw [hji] at hpe
                rw [if_pos rfl] at hpe
                rw [hpi] at hje
                rw [hci] at hpe
                cases hje
                cases hpe
                exact hc.asymm hcmp
              · by_cases hpji : (j - 1) / 2 = i
                · -- former children of i, now under the moved-up entry
                  rw [if_neg (by omega), if_neg hji] at hje
                  rw [hpji, if_neg (by omega), if_pos rfl] at hpe
                  rw [hpi] at hpe
                  cases hpe
                  exact hup.2 j e pi (by omega) hpji hje hpi
                · by_cases hpjp : (j - 1) / 2 = (i - 1) / 2
                  · -- the sibling of i keeps its old entry, now compared
                    -- with the moved-up child
                    rw [if_neg hjp, if_neg hji] at hje
                    rw [hpjp, if_pos rfl] at hpe
                    rw [hci] at hpe
                    cases hpe
                    intro hlt
                    exact hup.1 j e pi hj hji hje (by rw [hpjp]; exact hpi)
                      (hc.lt_trans _ _ _ hlt hcmp)
                  · -- untouched pair
                    rw [if_neg hjp, if_neg hji] at hje
                    rw [if_neg hpjp, if_neg hpji] at hpe
                    exact hup.1 j e pe hj hji hje hpe
            · -- children of the new hole against its parent
              intro j e gp hp0 hpj hje hgp
              rw [swapAt_getElem? l j hilen hplen] at hje
              rw [swapAt_getElem? l (((i - 1) / 2 - 1) / 2) hilen hplen] at hgp
              have hgpi : ((i - 1) / 2 - 1) / 2 ≠ i := by omega
              have hgpp : ((i - 1) / 2 - 1) / 2 ≠ (i - 1) / 2 := by omega
              rw [if_neg hgpp, if_neg hgpi] at hgp
              by_cases hji : j = i
              · -- the moved-down entry, formerly at (i-1)/2
                rw [if_neg (by omega), if_pos hji] at hje
                rw [hpi] at hje
                cases hje
                exact hup.1 ((i - 1) / 2) pi gp hp0 (by omega) hpi hgp
              · -- the sibling of i under the old parent's parent
                have hjpne : j ≠ (i - 1) / 2 := by omega
                rw [if_neg hjpne, if_neg hji] at hje
                refine hc.not_lt_trans _ _ _
                  (hup.1 j e pi (by omega) hji hje (by rw [hpj]; exact hpi)) ?_
                exact hup.1 ((i - 1) / 2) pi gp hp0 (by omega) hpi hgp
          · rw [if_neg hcmp]
            intro j e pe hj hje hpe
            by_cases hji : j = i
            · rw [hji, hci] at hje
              rw [hji, hpi] at hpe
              cases hje
              cases hpe
              exact hcmp
            · exact hup.1 j e pe hj hji hje hpe

/-- When the sift-down target is the index itself, neither child
compares strictly below it. -/
theorem downTarget_self {α : Type} {c : ℚ → ℚ → ℚ} {l : List (PQEntry α)} {i : Nat}
    (h : downTarget c l i = i) :
    (∀ (e ci : PQEntry α), l[2 * i + 1]? = some e → l[i]? = some ci →
      ¬ c e.priority ci.priority < 0) ∧
    (∀ (e ci : PQEntry α), l[2 * i + 2]? = some e → l[i]? = some ci →
      ¬ c e.priority ci.priority < 0) := by
  unfold downTarget at h
  have hm1 : childMin c l (2 * i + 1) i = i := by
    rcases childMin_cases c l (2 * i + 1) i with h1 | ⟨h1, _⟩
    · exact h1
    · rw [h1] at h
      rcases childMin_cases c l (2 * i + 2) (2 * i + 1) with h2 | ⟨h2, _⟩ <;> omega
  rw [hm1] at h
  constructor
  · intro e ci hje hci
    unfold childMin at hm1
    rw [hje, hci] at hm1
    dsimp only at hm1
    by_cases hlt : c e.priority ci.priority < 0
    · rw [if_pos hlt] at hm1
      omega
    · exact hlt
  · intro e ci hje hci
    unfold childMin at h
    rw [hje, hci] at h
    dsimp only at h
    by_cases hlt : c e.priority ci.priority < 0
    · rw [if_pos hlt] at h
      omega
    · exact hlt

/-- When the sift-down target differs from the index, it is a child that
compares strictly below the index's entry and no higher than its
sibling. -/
theorem downTarget_ne_spec {α : Type} {c : ℚ → ℚ → ℚ} (hc : CompareLaws c)
    {l : List (PQEntry α)} {i : Nat} (h : downTarget c l i ≠ i) :
    (downTarget c l i = 2 * i + 1 ∨ downTarget c l i = 2 * i + 2) ∧
    (∀ (e ci : PQEntry α), l[downTarget c l i]? = some e → l[i]? = some ci →
      c e.priority ci.priority < 0) ∧
    (∀ (s : Nat) (es e : PQEntry α), (s = 2 * i + 1 ∨ s = 2 * i + 2) →
      s ≠ downTarget c l i → l[s]? = some es → l[downTarget c l i]? = some e →
      ¬ c es.priority e.priority < 0) := by
  cases hci : l[i]? with
  | none =>
    exfalso
    apply h
    have hm1 : childMin c l (2 * i + 1) i = i := by
      unfold childMin
      rw [hci]
      cases l[2 * i + 1]? <;> rfl
    unfold downTarget
    rw [hm1]
    unfold childMin
    rw [hci]
    cases l[2 * i + 2]? <;> rfl
  | some vi =>
    cases hc1 : l[2 * i + 1]? with
    | none =>
      -- no left child: the right child slot is beyond the array, so the
      -- target can only be i itself
      exfalso
      apply h
      have h1len : ¬ 2 * i + 1 < l.length := by
        intro hcon
        rw [List.getElem?_eq_getElem hcon] at hc1
        cases hc1
      have hc2 : l[2 * i + 2]? = none := by
        rw [List.getElem?_eq_none]
        omega
      have hm1 : childMin c l (2 * i + 1) i = i := by
        unfold childMin
        rw [hc1]
      unfold downTarget
      rw [hm1]
      unfold childMin
      rw [hc2]
    | some v1 =>
      have hm1d : childMin c l (2 * i + 1) i
          = if c v1.priority vi.priority < 0 then 2 * i + 1 else i := by
        unfold childMin
        rw [hc1, hci]
      by_cases hlt1 : c v1.priority vi.priority < 0
      · -- left child beats the root entry
        rw [if_pos hlt1] at hm1d
        have hdt : downTarget c l i = childMin c l (2 * i + 2) (2 * i + 1) := by
          unfold downTarget
          rw [hm1d]
        cases hc2 : l[2 * i + 2]? with
        | none =>
          have hdt1 : downTarget c l i = 2 * i + 1 := by
            rw [hdt]
            unfold childMin
            rw [hc2]
          refine ⟨Or.inl hdt1, ?_, ?_⟩
          · intro e ci hje hcie
            rw [hdt1, hc1] at hje
            cases hje
            cases hcie
            exact hlt1
          · intro s es e hs hsne hse hde
            rcases hs with rfl | rfl
            · exact absurd (hdt1.symm) hsne
            · rw [hc2] at hse
              cases hse
        | some v2 =>
          have hdt2 : downTarget c l i
              = if c v2.priority v1.priority < 0 then 2 * i + 2 else 2 * i + 1 := by
            rw [hdt]
            unfold childMin
            rw [hc2, hc1]
          by_cases hlt21 : c v2.priority v1.priority < 0
          · rw [if_pos hlt21] at hdt2
            refine ⟨Or.inr hdt2, ?_, ?_⟩
            · intro e ci hje hcie
              rw [hdt2, hc2] at hje
              cases hje
              cases hcie
              exact hc.lt_trans _ _ _ hlt21 hlt1
            · intro s es e hs hsne hse hde
              rw [hdt2, hc2] at hde
              cases hde
              rcases hs with rfl | rfl
              · rw [hc1] at hse
                cases hse
                exact hc.asymm hlt21
              · exact absurd hdt2.symm hsne
          · rw [if_neg hlt21] at hdt2
            refine ⟨Or.inl hdt2, ?_, ?_⟩
            · intro e ci hje hcie
              rw [hdt2, hc1] at hje
              cases hje
              cases hcie
              exact hlt1
            · intro s es e hs hsne hse hde
              rw [hdt2, hc1] at hde
              cases hde
              rcases hs with rfl | rfl
              · exact absurd hdt2.symm hsne
              · rw [hc2] at hse
                cases hse
                exact hlt21
      · -- left child does not beat the root entry
        rw [if_neg hlt1] at hm1d
        have hdt : downTarget c l i = childMin c l (2 * i + 2) i := by
          unfold downTarget
          rw [hm1d]
        cases hc2 : l[2 * i + 2]? with
        | none =>
          exfalso
          apply h
          rw [hdt]
          unfold childMin
          rw [hc2]
        | some v2 =>
          have hdt2 : downTarget c l i
              = if c v2.priority vi.priority < 0 then 2 * i + 2 else i := by
            rw [hdt]
            unfold childMin
            rw [hc2, hci]
          by_cases hlt2 : c v2.priority vi.priority < 0
          · rw [if_pos hlt2] at hdt2
            refine ⟨Or.inr hdt2, ?_, ?_⟩
            · intro e ci hje hcie
              rw [hdt2, hc2] at hje
              cases hje
              cases hcie
              exact hlt2
            · intro s es e hs hsne hse hde
              rw [hdt2, hc2] at hde
              cases hde
              rcases hs with rfl | rfl
              · rw [hc1] at hse
                cases hse
                intro hcon
                exact hlt1 (hc.lt_trans _ _ _ hcon hlt2)
              · exact absurd hdt2.symm hsne
          · rw [if_neg hlt2] at hdt2
            exact absurd hdt2 h

theorem heapifyDown_heapProp {α : Type} {c : ℚ → ℚ → ℚ} (hc : CompareLaws c) :
    ∀ (n : Nat) (l : List (PQEntry α)) (i : Nat), l.length - i < n →
      DownAdmissible c l i → HeapProp c (heapifyDown c l i) := by
  intro n
  induction n with
  | zero =>
    intro l i hn
    omega
  | succ n ih =>
    intro l i hn hdown
    rw [heapifyDown_eq]
    by_cases hdt : downTarget c l i = i
    · rw [if_pos hdt]
      obtain ⟨hch1, hch2⟩ := downTarget_self hdt
      intro j e pe hj hje hpe
      by_cases hpj : (j - 1) / 2 = i
      · have hj12 : j = 2 * i + 1 ∨ j = 2 * i + 2 := by omega
        rw [hpj] at hpe
        rcases hj12 with rfl | rfl
        · exact hch1 e pe hje hpe
        · exact hch2 e pe hje hpe
      · exact hdown.1 j e pe hj hpj hje hpe
    · rw [if_neg hdt]
      obtain ⟨hd12, hdlt, hsib⟩ := downTarget_ne_spec hc hdt
      rcases downTarget_cases c l i with hceq | ⟨hgtl, hltl⟩
      · exact absurd hceq hdt
      · have hilen : i < l.length := by omega
        obtain ⟨vi, hvi⟩ : ∃ vi, l[i]? = some vi := ⟨_, List.getElem?_eq_getElem hilen⟩
        obtain ⟨vd, hvd⟩ : ∃ vd, l[downTarget c l i]? = some vd :=
          ⟨_, List.getElem?_eq_getElem hltl⟩
        have hlt : c vd.priority vi.priority < 0 := hdlt vd vi hvd hvi
        have hswlen : (swapAt l i (downTarget c l i)).length = l.length := swapAt_length ..
        refine ih (swapAt l i (downTarget c l i)) (downTarget c l i)
          (by rw [hswlen]; omega) ⟨?_, ?_⟩
        · intro j e pe hj hpjd hje hpe
          rw [swapAt_getElem? l j hilen hltl] at hje
          rw [swapAt_getElem? l ((j - 1) / 2) hilen hltl] at hpe
          by_cases hjd : j = downTarget c l i
          · -- the demoted entry against the promoted one
            have hpji : (j - 1) / 2 = i := by omega
            rw [if_pos hjd] at hje
            rw [hpji, if_neg (by omega), if_pos rfl] at hpe
            rw [hvi] at hje
            rw [hvd] at hpe
            cases hje
            cases hpe
            exact hc.asymm hlt
          · by_cases hpji : (j - 1) / 2 = i
            · -- the sibling of the target against the promoted entry
              have hs : j = 2 * i + 1 ∨ j = 2 * i + 2 := by omega
              have hjne : j ≠ i := by omega
              rw [if_neg hjd, if_neg hjne] at hje
              rw [hpji, if_neg (by omega), if_pos rfl] at hpe
              rw [hvd] at hpe
              cases hpe
              exact hsib j e vd hs hjd hje hvd
            · by_cases hji : j = i
              · -- the promoted entry against its old grandparent
                rw [if_neg hjd, if_pos hji] at hje
                rw [hji] at hpe
                rw [if_neg (by omega), if_neg (by omega)] at hpe
                rw [hvd] at hje
                cases hje
                refine hdown.2 (downTarget c l i) vd pe (by omega) (by omega) hvd ?_
                exact hpe
              · -- untouched pair
                rw [if_neg hjd, if_neg hji] at hje
                rw [if_neg hpjd, if_neg hpji] at hpe
                exact hdown.1 j e pe hj hpji hje hpe
        · intro j e gp hd0 hpj hje hgp
          rw [swapAt_getElem? l j hilen hltl] at hje
          rw [swapAt_getElem? l ((downTarget c l i - 1) / 2) hilen hltl] at hgp
          have hpdi : (downTarget c l i - 1) / 2 = i := by omega
          rw [hpdi, if_neg (by omega), if_pos rfl] at hgp
          rw [hvd] at hgp
          cases hgp
          have hjgt : downTarget c l i < j := by omega
          rw [if_neg (by omega), if_neg (by omega)] at hje
          exact hdown.1 j e vd (by omega) (by omega) hje
            (by rw [hpj]; exact hvd)

/-- `enqueue` keeps the array heap-ordered. -/
theorem enqueue_heapProp {α : Type} {c : ℚ → ℚ → ℚ} (hc : CompareLaws c)
    {q : PriorityQueue α} (hcq : q.compare = c) (hq : HeapProp c q.items)
    (a : α) (p : ℚ) : HeapProp c (q.enqueue a p).items := by
  unfold enqueue
  dsimp only
  rw [hcq]
  refine heapifyUp_heapProp hc (q.items.length + 1) q.items.length (by omega) _ ⟨?_, ?_⟩
  · intro j e pe hj hjne hje hpe
    have hjlen : j < (q.items ++ [(⟨a, p⟩ : PQEntry α)]).length :=
      (List.getElem?_eq_some.mp hje).1
    rw [List.length_append, List.length_singleton] at hjlen
    have hjlt : j < q.items.length := by omega
    rw [List.getElem?_append_left hjlt] at hje
    rw [List.getElem?_append_left (by omega)] at hpe
    exact hq j e pe hj hje hpe
  · intro j e gp hi0 hpj hje hgp
    have hjlen : j < (q.items ++ [(⟨a, p⟩ : PQEntry α)]).length :=
      (List.getElem?_eq_some.mp hje).1
    rw [List.length_append, List.length_singleton] at hjlen
    omega

/-- `dequeue` keeps the array heap-ordered. -/
theorem dequeue_heapProp {α : Type} {c : ℚ → ℚ → ℚ} (hc : CompareLaws c)
    {q : PriorityQueue α} (hcq : q.compare = c) (hq : HeapProp c q.items) :
    HeapProp c ((q.dequeue).2).items := by
  unfold dequeue
  cases hitems : q.items with
  | nil =>
    dsimp only
    exact hq
  | cons first rest0 =>
    dsimp only
    cases hlast : (first :: rest0).getLast? with
    | none =>
      rw [List.getLast?_eq_getElem?] at hlast
      simp at hlast
    | some last =>
      dsimp only
      by_cases hre : ((first :: rest0).dropLast).isEmpty
      · rw [if_pos hre]
        intro j e pe hj hje hpe
        cases hje
      · rw [if_neg hre]
        dsimp only
        rw [hcq]
        have hLlen : ((first :: rest0).dropLast).length = rest0.length := by
          simp
        refine heapifyDown_heapProp hc
          ((((first :: rest0).dropLast).set 0 last).length + 1) _ 0 (by omega) ⟨?_, ?_⟩
        · intro j e pe hj hpj hje hpe
          have hjlen : j < (((first :: rest0).dropLast).set 0 last).length :=
            (List.getElem?_eq_some.mp hje).1
          rw [List.length_set, hLlen] at hjlen
          rw [List.getElem?_set_ne (by omega)] at hje
          rw [List.getElem?_set_ne (by omega)] at hpe
          rw [List.getElem?_dropLast, if_pos (by simp; omega)] at hje
          rw [List.getElem?_dropLast, if_pos (by simp; omega)] at hpe
          exact hq j e pe hj (by rw [hitems]; exact hje) (by rw [hitems]; exact hpe)
        · intro j e gp hi0 hpj hje hgp
          omega

/-- `dequeue` keeps the comparator. -/
theorem dequeue_snd_compare {α : Type} (q : PriorityQueue α) :
    ((q.dequeue).2).compare = q.compare := by
  unfold dequeue
  cases hitems : q.items with
  | nil => rfl
  | cons first rest0 =>
    dsimp only
    cases hlast : (first :: rest0).getLast? with
    | none => rfl
    | some last =>
      dsimp only
      by_cases hre : ((first :: rest0).dropLast).isEmpty
      · rw [if_pos hre]
      · rw [if_neg hre]

/-- Every reachable queue state is heap-ordered with the construction
comparator. -/
theorem execOps_heapProp {α : Type} {c : ℚ → ℚ → ℚ} (hc : CompareLaws c) :
    ∀ (ops : List (QOp α)) (q : PriorityQueue α), q.compare = c → HeapProp c q.items →
      (execOps q ops).compare = c ∧ HeapProp c (execOps q ops).items := by
  intro ops
  induction ops with
  | nil =>
    intro q hcq hq
    exact ⟨hcq, hq⟩
  | cons op rest ih =>
    intro q hcq hq
    cases op with
    | enq a p =>
      exact ih (q.enqueue a p) hcq (enqueue_heapProp hc hcq hq a p)
    | deq =>
      exact ih (q.dequeue).2 (by rw [dequeue_snd_compare]; exact hcq)
        (dequeue_heapProp hc hcq hq)
    | clr =>
      refine ih q.clear hcq ?_
      intro j e pe hj hje hpe
      cases hje

/-- Claim C9: for every sequence of queue operations run from a fresh
queue whose comparator orders priorities (its strict "compares below"
relation is irreflexive and transitive, with a transitive complement),
`dequeue` returns the sentinel `(none, unchanged queue)` on an empty
queue, and otherwise removes and returns the root item, whose priority
is minimal under the comparator among all items in the queue. -/
theorem C9_dequeue_minimal {α : Type} {c : ℚ → ℚ → ℚ} (hc : CompareLaws c)
    (ops : List (QOp α)) :
    ((execOps (PriorityQueue.mk [] c) ops).items = [] →
      (execOps (PriorityQueue.mk [] c) ops).dequeue
        = (none, execOps (PriorityQueue.mk [] c) ops)) ∧
    ∀ (e : PQEntry α) (tail : List (PQEntry α)),
      (execOps (PriorityQueue.mk [] c) ops).items = e :: tail →
      ∃ q', (execOps (PriorityQueue.mk [] c) ops).dequeue = (some e.item, q') ∧
        (e :: q'.items).Perm (execOps (PriorityQueue.mk [] c) ops).items ∧
        ∀ x ∈ (execOps (PriorityQueue.mk [] c) ops).items,
          ¬ c x.priority e.priority < 0 := by
  obtain ⟨hcmp, hheap⟩ := execOps_heapProp hc ops (PriorityQueue.mk [] c) rfl
    (by intro j e pe hj hje hpe; cases hje)
  constructor
  · intro hempty
    exact dequeue_of_items_nil _ hempty
  · intro e tail hitems
    obtain ⟨q', hdeq, hperm, hcq'⟩ := dequeue_of_items_cons _ e tail hitems
    refine ⟨q', hdeq, hperm, ?_⟩
    intro x hx
    have hroot : (execOps (PriorityQueue.mk [] c) ops).items[0]? = some e := by
      rw [hitems]
      simp
    obtain ⟨n, hn⟩ := List.mem_iff_getElem?.mp hx
    exact heapProp_root_min hc hheap hroot n x hn

theorem C9_dequeue_minimal_witness :
    ((execOps (PriorityQueue.mk [] (fun a b => a - b))
          [QOp.enq (7 : Int) 5, QOp.enq 3 2, QOp.deq]).items = [] →
      (execOps (PriorityQueue.mk [] (fun a b => a - b))
          [QOp.enq (7 : Int) 5, QOp.enq 3 2, QOp.deq]).dequeue
        = (none, execOps (PriorityQueue.mk [] (fun a b => a - b))
            [QOp.enq (7 : Int) 5, QOp.enq 3 2, QOp.deq])) ∧
    ∀ (e : PQEntry Int) (tail : List (PQEntry Int)),
      (execOps (PriorityQueue.mk [] (fun a b => a - b))
          [QOp.enq (7 : Int) 5, QOp.enq 3 2, QOp.deq]).items = e :: tail →
      ∃ q', (execOps (PriorityQueue.mk [] (fun a b => a - b))
            [QOp.enq (7 : Int) 5, QOp.enq 3 2, QOp.deq]).dequeue = (some e.item, q') ∧
        (e :: q'.items).Perm (execOps (PriorityQueue.mk [] (fun a b => a - b))
            [QOp.enq (7 : Int) 5, QOp.enq 3 2, QOp.deq]).items ∧
        ∀ x ∈ (execOps (PriorityQueue.mk [] (fun a b => a - b))
            [QOp.enq (7 : Int) 5, QOp.enq 3 2, QOp.deq]).items,
          ¬ (fun (a b : ℚ) => a - b) x.priority e.priority < 0 :=
  C9_dequeue_minimal
    ⟨fun x => by simp,
     fun x y z h1 h2 => by linarith,
     fun x y z h1 h2 => by
       simp only [not_lt] at h1 h2 ⊢
       linarith⟩
    [QOp.enq (7 : Int) 5, QOp.enq 3 2, QOp.deq]

end PriorityQueue

end LobSDK
